import Mathlib

/-!
Verification development for the Little-Alchemy element-combination and
world-object lifecycle engine (src/main.cpp).

The C++ core is shallowly embedded:
* `Element`, `GameObject` mirror the classes of the same names; a `GameObject`
  stores the `name` of its element (the catalog, a `List Element`, is the single
  source of truth for per-element state, mirroring the `shared_ptr<Element>`
  aliasing), its sprite position and effective global-bounds size, its creation
  time, its dragging flag, and the alpha component of its sprite colour
  (255 = white, 128 = the semi-transparent "rejected" feedback).
* Pointer identity of `shared_ptr<GameObject>` is modelled by an `id : Nat`
  field; the world state carries a `nextId` allocation counter so that every
  freshly constructed object gets an identity distinct from all live objects,
  exactly as `std::make_shared` guarantees.
* `float` coordinates, times and sizes are modelled by `ℚ`. All quantities the
  program manipulates (small integers, halves from midpoints) are exactly
  representable, so rational arithmetic is a faithful model of the `float`
  computations performed here.

Rational arithmetic in the embedding is expressed with the executable
operations `qadd`, `qsub`, `qmul`, `qhalf` below, which are proved equal to the
field operations of `ℚ` (`qadd_eq` etc.); this keeps every definition fully
evaluable by the kernel.
-/

/-! ### Executable rational arithmetic -/

/-- Addition on `ℚ` via `mkRat`; agrees with `+` (`qadd_eq`). -/
def qadd (a b : ℚ) : ℚ := mkRat (a.num * b.den + b.num * a.den) (a.den * b.den)

/-- Subtraction on `ℚ` via `mkRat`; agrees with `-` (`qsub_eq`). -/
def qsub (a b : ℚ) : ℚ := mkRat (a.num * b.den - b.num * a.den) (a.den * b.den)

/-- Multiplication on `ℚ` via `mkRat`; agrees with `*` (`qmul_eq`). -/
def qmul (a b : ℚ) : ℚ := mkRat (a.num * b.num) (a.den * b.den)

/-- Halving on `ℚ` via `mkRat`; agrees with `· / 2` (`qhalf_eq`). -/
def qhalf (a : ℚ) : ℚ := mkRat a.num (2 * a.den)

theorem qadd_eq (a b : ℚ) : qadd a b = a + b := by
  have ha : (a.den : ℚ) ≠ 0 := Nat.cast_ne_zero.mpr a.den_nz
  have hb : (b.den : ℚ) ≠ 0 := Nat.cast_ne_zero.mpr b.den_nz
  rw [qadd, Rat.mkRat_eq_div]
  push_cast
  conv_rhs => rw [← Rat.num_div_den a, ← Rat.num_div_den b]
  field_simp

theorem qsub_eq (a b : ℚ) : qsub a b = a - b := by
  have ha : (a.den : ℚ) ≠ 0 := Nat.cast_ne_zero.mpr a.den_nz
  have hb : (b.den : ℚ) ≠ 0 := Nat.cast_ne_zero.mpr b.den_nz
  rw [qsub, Rat.mkRat_eq_div]
  push_cast
  conv_rhs => rw [← Rat.num_div_den a, ← Rat.num_div_den b]
  field_simp
  ring

theorem qmul_eq (a b : ℚ) : qmul a b = a * b := by
  have ha : (a.den : ℚ) ≠ 0 := Nat.cast_ne_zero.mpr a.den_nz
  have hb : (b.den : ℚ) ≠ 0 := Nat.cast_ne_zero.mpr b.den_nz
  rw [qmul, Rat.mkRat_eq_div]
  push_cast
  conv_rhs => rw [← Rat.num_div_den a, ← Rat.num_div_den b]
  field_simp

theorem qhalf_eq (a : ℚ) : qhalf a = a / 2 := by
  have ha : (a.den : ℚ) ≠ 0 := Nat.cast_ne_zero.mpr a.den_nz
  rw [qhalf, Rat.mkRat_eq_div]
  push_cast
  conv_rhs => rw [← Rat.num_div_den a]
  field_simp
  exact Or.inl (mul_comm _ _)

/-! ### Geometry: `sf::FloatRect`

`contains` and `intersects` mirror SFML's implementations for rectangles with
non-negative sizes: a point is contained in the half-open box
`[left, left+width) × [top, top+height)`, and two rectangles intersect iff
their interiors overlap (strict inequalities). -/

structure FloatRect where
  left : ℚ
  top : ℚ
  width : ℚ
  height : ℚ
deriving DecidableEq, Repr

/-- SFML `sf::FloatRect::contains` for non-negative sizes. -/
def FloatRect.containsPoint (r : FloatRect) (x y : ℚ) : Bool :=
  decide (r.left ≤ x) && decide (x < qadd r.left r.width) &&
  decide (r.top ≤ y) && decide (y < qadd r.top r.height)

/-- SFML `sf::FloatRect::intersects` for non-negative sizes. -/
def FloatRect.intersects (a b : FloatRect) : Bool :=
  decide (max a.left b.left < min (qadd a.left a.width) (qadd b.left b.width)) &&
  decide (max a.top b.top < min (qadd a.top a.height) (qadd b.top b.height))

/-! ### Data model -/

/-- The `Element` class: name, description, discovery flag, creation counter.
The constructor (src/main.cpp:27) initialises `creationCount` to `0`. -/
structure Element where
  name : String
  description : String
  discovered : Bool
  creationCount : Nat
deriving DecidableEq, Repr

/-- The `GameObject` class. `id` models `shared_ptr` identity; `width`/`height`
are the sprite's effective global-bounds size (texture size × the 0.5 scale);
`alpha` is the alpha component of the sprite colour (255 white,
128 the semi-transparent "rejected" feedback). -/
structure GameObject where
  id : Nat
  elemName : String
  posX : ℚ
  posY : ℚ
  width : ℚ
  height : ℚ
  creationTime : ℚ
  isDragging : Bool
  alpha : Nat
deriving DecidableEq, Repr

/-- Global bounds of a `GameObject`'s sprite (`sprite.getGlobalBounds()`). -/
def GameObject.bounds (o : GameObject) : FloatRect :=
  ⟨o.posX, o.posY, o.width, o.height⟩

/-- Whether two objects' sprites overlap (`getGlobalBounds().intersects(...)`). -/
def overlaps (a b : GameObject) : Bool := a.bounds.intersects b.bounds

/-! ### The combination registry (src/main.cpp:57-145)

`combinationList` lists exactly the entries inserted by the
`CombinationRegistry` constructor, in insertion order. All keys are distinct,
so `std::map` lookup coincides with first-match association-list lookup. -/

def combinationList : List ((String × String) × String) :=
  [ (("Fire", "Water"), "Steam"), (("Water", "Fire"), "Steam"),
    (("Fire", "Earth"), "Lava"), (("Earth", "Fire"), "Lava"),
    (("Fire", "Air"), "Smoke"), (("Air", "Fire"), "Smoke"),
    (("Water", "Earth"), "Mud"), (("Earth", "Water"), "Mud"),
    (("Water", "Air"), "Mist"), (("Air", "Water"), "Mist"),
    (("Earth", "Air"), "Dust"), (("Air", "Earth"), "Dust"),
    (("Fire", "Fire"), "Energy"), (("Water", "Water"), "Ocean"),
    (("Earth", "Earth"), "Mountain"), (("Air", "Air"), "Wind"),
    (("Steam", "Air"), "Cloud"), (("Air", "Steam"), "Cloud"),
    (("Cloud", "Water"), "Rain"), (("Water", "Cloud"), "Rain"),
    (("Mud", "Energy"), "Plant"), (("Energy", "Mud"), "Plant"),
    (("Lava", "Air"), "Stone"), (("Air", "Lava"), "Stone"),
    (("Lava", "Mountain"), "Volcano"), (("Mountain", "Lava"), "Volcano"),
    (("Energy", "Air"), "Lightning"), (("Air", "Energy"), "Lightning"),
    (("Water", "Wind"), "Ice"), (("Wind", "Water"), "Ice"),
    (("Stone", "Wind"), "Sand"), (("Wind", "Stone"), "Sand"),
    (("Mud", "Plant"), "Swamp"), (("Plant", "Mud"), "Swamp"),
    (("Plant", "Plant"), "Forest"),
    (("Sand", "Sand"), "Desert"),
    (("Energy", "Plant"), "Life"), (("Plant", "Energy"), "Life") ]

/-- First-match association-list lookup (= `std::map::find` on distinct keys). -/
def lookupCombo (e1 e2 : String) : List ((String × String) × String) → Option String
  | [] => none
  | (k, v) :: rest => if k = (e1, e2) then some v else lookupCombo e1 e2 rest

/-- `CombinationRegistry::getResult`: the result of combining two elements,
or `""` when the pair has no entry. -/
def getResult (e1 e2 : String) : String :=
  (lookupCombo e1 e2 combinationList).getD ""

/-- `CombinationRegistry::isValidCombination`. -/
def isValidCombination (e1 e2 : String) : Bool :=
  (lookupCombo e1 e2 combinationList).isSome

/-! ### The element catalog created by the `Game` constructor
(src/main.cpp:618-651): 4 primitive elements (discovered) and 22 derived
elements (undiscovered), all with `creationCount = 0`. -/

def initialElements : List Element :=
  [ ⟨"Fire", "A blazing flame", true, 0⟩,
    ⟨"Water", "Crystal clear liquid", true, 0⟩,
    ⟨"Earth", "Rich brown soil", true, 0⟩,
    ⟨"Air", "Invisible breeze", true, 0⟩,
    ⟨"Steam", "Hot water vapor", false, 0⟩,
    ⟨"Lava", "Molten rock and fire", false, 0⟩,
    ⟨"Smoke", "Cloudy haze", false, 0⟩,
    ⟨"Mud", "Wet and sticky earth", false, 0⟩,
    ⟨"Mist", "Gentle water vapor", false, 0⟩,
    ⟨"Dust", "Fine particles in air", false, 0⟩,
    ⟨"Energy", "Pure concentrated power", false, 0⟩,
    ⟨"Ocean", "Vast body of water", false, 0⟩,
    ⟨"Mountain", "Towering earthen peak", false, 0⟩,
    ⟨"Wind", "Strong moving air", false, 0⟩,
    ⟨"Cloud", "Fluffy sky formation", false, 0⟩,
    ⟨"Rain", "Falling water droplets", false, 0⟩,
    ⟨"Plant", "Green growing life", false, 0⟩,
    ⟨"Stone", "Hard solid rock", false, 0⟩,
    ⟨"Volcano", "Explosive mountain", false, 0⟩,
    ⟨"Lightning", "Electric bolt", false, 0⟩,
    ⟨"Ice", "Frozen water crystal", false, 0⟩,
    ⟨"Sand", "Tiny rock particles", false, 0⟩,
    ⟨"Swamp", "Muddy wetland", false, 0⟩,
    ⟨"Forest", "Dense tree collection", false, 0⟩,
    ⟨"Desert", "Vast sandy wasteland", false, 0⟩,
    ⟨"Life", "The essence of living things", false, 0⟩ ]

/-- Names of the four primitive elements, which start discovered. -/
def primitiveNames : List String := ["Fire", "Water", "Earth", "Air"]

/-! ### World state (the mutable fields of `Game` relevant to the core) -/

/-- The core-relevant mutable state of the `Game` class: the element catalog,
the world-object vector, the currently dragged object (a shadow copy of the
shared object, kept in sync with the vector entry of the same `id`), the
invalid-combination marker, the book-open flag, the right-sidebar scroll
offset, and the `nextId` allocation counter modelling fresh
`std::make_shared` identities. -/
structure WorldState where
  elements : List Element
  objects : List GameObject
  draggingObject : Option GameObject
  invalidMarkPosX : ℚ
  invalidMarkPosY : ℚ
  invalidMarkTime : ℚ
  bookOpen : Bool
  sidebarScroll : ℚ
  nextId : Nat
deriving Repr

/-- The `maxObjects` constant of `Game` (src/main.cpp:550). -/
def maxObjects : Nat := 50

/-! ### Collision resolution (`Game::checkCollisions`, src/main.cpp:823-884) -/

/-- The skip condition of the collision scan:
`other == tempDragged || other->isDragging`. -/
def skippedBy (dragged o : GameObject) : Bool :=
  o.id = dragged.id || o.isDragging

/-- X coordinate of the midpoint of two objects' sprite positions. -/
def midX (a b : GameObject) : ℚ := qhalf (qadd a.posX b.posX)

/-- Y coordinate of the midpoint of two objects' sprite positions. -/
def midY (a b : GameObject) : ℚ := qhalf (qadd a.posY b.posY)

/-- Result of the collision scan loop: the object vector after the in-place
miss side effects, the invalid-marker fields, and the first hit partner
(if the loop ended with `break` at a valid combination). -/
structure ScanOut where
  objectsOut : List GameObject
  markX : ℚ
  markY : ℚ
  markTime : ℚ
  hit : Option GameObject
deriving Repr

/-- The scan loop of `Game::checkCollisions`: walk the object vector in order;
skip the dragged object and any dragging object; at the first overlapping
object whose pair has a registered result stop (`break`) returning it as
`hit`; at an overlapping object with no result set the invalid marker to the
midpoint with expiry `time + 1` and make that object semi-transparent
(alpha 128), then keep scanning. -/
def scanObjects (dragged : GameObject) (time mx my mt : ℚ) :
    List GameObject → ScanOut
  | [] => ⟨[], mx, my, mt, none⟩
  | o :: rest =>
    if skippedBy dragged o then
      let r := scanObjects dragged time mx my mt rest
      ⟨o :: r.objectsOut, r.markX, r.markY, r.markTime, r.hit⟩
    else if overlaps dragged o then
      if getResult dragged.elemName o.elemName = "" then
        let r := scanObjects dragged time (midX dragged o) (midY dragged o)
          (qadd time 1) rest
        ⟨{ o with alpha := 128 } :: r.objectsOut, r.markX, r.markY, r.markTime, r.hit⟩
      else
        ⟨o :: rest, mx, my, mt, some o⟩
    else
      let r := scanObjects dragged time mx my mt rest
      ⟨o :: r.objectsOut, r.markX, r.markY, r.markTime, r.hit⟩

/-- The catalog mutation of a hit: find the first element named `result`,
set `discovered = true` and increment its `creationCount` (the loop over
`elements` at src/main.cpp:848-861, which `break`s after the first match). -/
def discoverAndCount (result : String) : List Element → List Element
  | [] => []
  | e :: rest =>
    if e.name = result then
      { e with discovered := true, creationCount := e.creationCount + 1 } :: rest
    else
      e :: discoverAndCount result rest

/-- First element of the catalog with the given name, if any (whether the
search loop of src/main.cpp:848-861 finds an element to spawn). -/
def findElement (result : String) : List Element → Option Element
  | [] => none
  | e :: rest => if e.name = result then some e else findElement result rest

/-- `Game::checkCollisions(dragged, time)`. `newId`, `newW`, `newH` supply the
identity of the freshly allocated result object and its sprite size (taken
from the result element's texture, scaled 0.5). On a hit the result element is
discovered and counted, a result instance is spawned at the midpoint (only if
the catalog search found the element), and both consumed objects are erased
from the vector; on a pure miss only the marker and alpha side effects
remain. -/
def checkCollisions (dragged : GameObject) (time : ℚ) (newId : Nat)
    (newW newH : ℚ) (st : WorldState) : WorldState :=
  let r := scanObjects dragged time st.invalidMarkPosX st.invalidMarkPosY
    st.invalidMarkTime st.objects
  match r.hit with
  | none =>
    { st with objects := r.objectsOut, invalidMarkPosX := r.markX,
              invalidMarkPosY := r.markY, invalidMarkTime := r.markTime }
  | some other =>
    let result := getResult dragged.elemName other.elemName
    let withNew :=
      match findElement result st.elements with
      | some _ =>
        r.objectsOut ++
          [({ id := newId, elemName := result, posX := midX dragged other,
              posY := midY dragged other, width := newW, height := newH,
              creationTime := time, isDragging := false, alpha := 255 } :
            GameObject)]
      | none => r.objectsOut
    { st with
      elements := discoverAndCount result st.elements,
      objects := withNew.filter (fun o => !(o.id = dragged.id || o.id = other.id)),
      invalidMarkPosX := r.markX, invalidMarkPosY := r.markY,
      invalidMarkTime := r.markTime }

/-! ### The per-frame update (`Game::update`, src/main.cpp:889-905)

The eviction loop `while (objects.size() > maxObjects) erase(min_element ...)`
is embedded with explicit fuel (`evictN`), called with fuel `objects.length`,
which is enough for the loop to reach its exit condition. `std::min_element`
with the strict comparator `a->creationTime < b->creationTime` returns the
first position attaining the minimal creation time; `minKeyIdx` computes that
position (generalised over the key function for the proofs below). -/

/-- Minimal key value of a list (head-biased; `0` for `[]`). -/
def minKeyVal {α : Type} (f : α → ℚ) : List α → ℚ
  | [] => 0
  | [a] => f a
  | a :: rest => min (f a) (minKeyVal f rest)

/-- First position attaining the minimal key (= `std::min_element` with a
strict `<` comparator). -/
def minKeyIdx {α : Type} (f : α → ℚ) : List α → Nat
  | [] => 0
  | [_] => 0
  | a :: rest => if minKeyVal f rest < f a then minKeyIdx f rest + 1 else 0

/-- One iteration of the eviction loop: erase the first oldest object. -/
def evictOnce {α : Type} (f : α → ℚ) (l : List α) : List α :=
  l.eraseIdx (minKeyIdx f l)

/-- The eviction `while` loop, with fuel. -/
def evictN {α : Type} (f : α → ℚ) : Nat → Nat → List α → List α
  | 0, _, l => l
  | fuel + 1, cap, l =>
    if l.length ≤ cap then l else evictN f fuel cap (evictOnce f l)

/-- Reset an object's sprite colour to white (`setColor(sf::Color::White)`). -/
def resetColor (o : GameObject) : GameObject := { o with alpha := 255 }

/-- `Game::update`: evict oldest objects while over the limit, then reset all
sprite colours to white. -/
def tickObjects (cap : Nat) (l : List GameObject) : List GameObject :=
  (evictN (fun o => o.creationTime) l.length cap l).map resetColor

/-- The state transition of one `update` call. -/
def handleTick (st : WorldState) : WorldState :=
  { st with objects := tickObjects maxObjects st.objects }

/-! ### Event handling (`Game::handleEvents`, src/main.cpp:695-817)

The window maps pixels to coordinates with the default view, so
`mapPixelToCoords` is the identity; the window size is 800 × 600. The book's
`selectedIndex` and `bookScroll` fields influence rendering only and are not
tracked; its `isOpen` flag is tracked exactly, since it gates all sandbox
input. -/

/-- The book icon's global bounds: position (10, 10), scaled to 64 × 64. -/
def bookIconRect : FloatRect := ⟨10, 10, 64, 64⟩

/-- The book's close-button rectangle: position (668, 100), size 32 × 32. -/
def bookExitRect : FloatRect := ⟨668, 100, 32, 32⟩

/-- The trash bin's global bounds: position (10, 600 - 74), scaled to
64 × 64. -/
def trashRect : FloatRect := ⟨10, 526, 64, 64⟩

/-- Effect of `ElementBook::handleInput` on the `isOpen` flag for a left
mouse press at `(mx, my)`: closed + click on the icon toggles open; open +
click outside the book area (or on the close button) toggles closed. -/
def bookAfterPress (isOpen : Bool) (mx my : ℚ) : Bool :=
  if isOpen then
    if mx < 100 ∨ mx > 700 ∨ my < 100 ∨ my > 500 then false
    else if bookExitRect.containsPoint mx my then false
    else true
  else if bookIconRect.containsPoint mx my then true
  else false

/-- The sidebar spawn loop (src/main.cpp:745-768): walk the catalog counting
discovered elements; for each discovered element check that its 100 × 30
button at `(705, 10 + discoveredIndex * 30 - sidebarScroll)` is visible
(`-30 ≤ y ≤ 600`), contains the mouse position, and that
`objects.size() < maxObjects`; on success return the catalog index of the
element to spawn (`break`). Buttons occupy disjoint half-open boxes, so at
most one can contain the mouse position. -/
def findSpawnIdx (mx my scroll : ℚ) (objCount : Nat) :
    List Element → Nat → Nat → Option Nat
  | [], _, _ => none
  | e :: rest, i, d =>
    if e.discovered then
      let y : ℚ := qsub (qadd 10 (qmul d 30)) scroll
      if (decide (-30 ≤ y) && decide (y ≤ 600)) &&
          FloatRect.containsPoint ⟨705, y, 100, 30⟩ mx my &&
          decide (objCount < maxObjects) then
        some i
      else
        findSpawnIdx mx my scroll objCount rest (i + 1) (d + 1)
    else
      findSpawnIdx mx my scroll objCount rest (i + 1) d

/-- Increment `creationCount` of the element at catalog position `i`
(`elements[i]->creationCount++`). -/
def incrementCountAt (i : Nat) : List Element → List Element
  | [] => []
  | e :: rest =>
    match i with
    | 0 => { e with creationCount := e.creationCount + 1 } :: rest
    | j + 1 => e :: incrementCountAt j rest

/-- The drag-start loop (src/main.cpp:770-779): the first object in vector
order whose sprite bounds contain the mouse position. -/
def findDragTarget (mx my : ℚ) : List GameObject → Option GameObject
  | [] => none
  | o :: rest =>
    if o.bounds.containsPoint mx my then some o else findDragTarget mx my rest

/-- A left mouse press (src/main.cpp:740-780). `newW`/`newH` supply the size
of the sprite a spawn would create (the clicked element's texture, scaled
0.5). First the book handles the click (possibly toggling open or closed);
if the book is open afterwards the sandbox ignores the press. Otherwise the
sidebar spawn loop may create a new instance at (400, 300) and increment the
element's creation counter, and then the drag-start loop may begin dragging
the first object under the pointer. -/
def handlePress (mx my : ℚ) (newW newH time : ℚ) (st : WorldState) : WorldState :=
  let bo := bookAfterPress st.bookOpen mx my
  let st1 := { st with bookOpen := bo }
  if bo then st1
  else
    let st2 :=
      match findSpawnIdx mx my st1.sidebarScroll st1.objects.length st1.elements 0 0 with
      | some i =>
        match st1.elements[i]? with
        | some e =>
          { st1 with
            objects := st1.objects ++
              [({ id := st1.nextId, elemName := e.name, posX := 400, posY := 300,
                  width := newW, height := newH, creationTime := time,
                  isDragging := false, alpha := 255 } : GameObject)],
            elements := incrementCountAt i st1.elements,
            nextId := st1.nextId + 1 }
        | none => st1
      | none => st1
    match findDragTarget mx my st2.objects with
    | some o =>
      { st2 with
        objects := st2.objects.map
          (fun x => if x.id = o.id then { x with isDragging := true } else x),
        draggingObject := some { o with isDragging := true } }
    | none => st2

/-- A left mouse release (src/main.cpp:783-808). If an object is being
dragged: when its bounds intersect the trash bin it is erased outright;
otherwise `checkCollisions` runs with the current clock time (a fresh identity
and the result sprite size are supplied for the object a hit would spawn).
In both cases the dragged object's `isDragging` is cleared and
`draggingObject` is reset. When the book is open the release is ignored. -/
def handleRelease (newW newH time : ℚ) (st : WorldState) : WorldState :=
  if st.bookOpen then st
  else
    match st.draggingObject with
    | none => st
    | some d =>
      let st1 :=
        if d.bounds.intersects trashRect then
          { st with objects := st.objects.filter (fun o => !(o.id = d.id)) }
        else
          let stc := checkCollisions d time st.nextId newW newH st
          { stc with nextId := st.nextId + 1 }
      { st1 with
        objects := st1.objects.map
          (fun o => if o.id = d.id then { o with isDragging := false } else o),
        draggingObject := none }

/-- A mouse move (src/main.cpp:811-815): while dragging, the dragged object's
sprite follows the pointer offset by (25, 25). The shared object is mutated,
so both the vector entry and the `draggingObject` shadow are updated. When the
book is open the move is ignored. -/
def handleMove (mx my : ℚ) (st : WorldState) : WorldState :=
  if st.bookOpen then st
  else
    match st.draggingObject with
    | none => st
    | some d =>
      { st with
        draggingObject := some { d with posX := qsub mx 25, posY := qsub my 25 },
        objects := st.objects.map
          (fun o =>
            if o.id = d.id then { o with posX := qsub mx 25, posY := qsub my 25 }
            else o) }

/-- A mouse-wheel scroll (src/main.cpp:707-728): over the right sidebar with
the book closed, adjust `sidebarScroll` by `delta * scrollSpeed` and clamp to
`[0, max 0 (discoveredCount * 30 - 600 + 50)]`. (When the book is open the
wheel only moves the untracked `bookScroll`.) -/
def handleWheel (mx delta : ℚ) (st : WorldState) : WorldState :=
  if decide (mx > 700) && !st.bookOpen then
    let dc : Nat := st.elements.countP (fun e => e.discovered)
    let maxScroll : ℚ := max 0 (qadd (qsub (qmul dc 30) 600) 50)
    { st with
      sidebarScroll := max 0 (min (qsub st.sidebarScroll (qmul delta 30)) maxScroll) }
  else st

/-! ### The event-step transition system -/

/-- Core-facing events: the pointer events of `handleEvents` plus the
per-frame `update` tick. The `ℚ` payloads of `press`/`release` carry the
sprite size a spawn would use (external texture data) and the clock value. -/
inductive GEvent where
  | press (mx my newW newH time : ℚ)
  | release (newW newH time : ℚ)
  | move (mx my : ℚ)
  | wheel (mx delta : ℚ)
  | tick
deriving Repr

/-- One event-processing step. -/
def step (st : WorldState) : GEvent → WorldState
  | .press mx my newW newH time => handlePress mx my newW newH time st
  | .release newW newH time => handleRelease newW newH time st
  | .move mx my => handleMove mx my st
  | .wheel mx delta => handleWheel mx delta st
  | .tick => handleTick st

/-- Run a sequence of events. -/
def run (st : WorldState) (evs : List GEvent) : WorldState :=
  evs.foldl step st

/-- The initial state built by the `Game` constructor: the 26-element catalog,
no objects, nothing dragged, no invalid marker (`invalidMarkTime = 0`), book
closed, sidebar unscrolled. -/
def initState : WorldState :=
  { elements := initialElements, objects := [], draggingObject := none,
    invalidMarkPosX := 0, invalidMarkPosY := 0, invalidMarkTime := 0,
    bookOpen := false, sidebarScroll := 0, nextId := 0 }

/-- States reachable from the initial state by any event sequence. -/
inductive Reachable : WorldState → Prop
  | init : Reachable initState
  | step {s : WorldState} (ev : GEvent) : Reachable s → Reachable (step s ev)

/-- States reachable by well-formed pointer streams: since events come from a
single mouse button, a press can only be delivered when no drag is in progress
(the button was released before being pressed again). -/
inductive ReachableWF : WorldState → Prop
  | init : ReachableWF initState
  | press {s : WorldState} (mx my newW newH time : ℚ) : ReachableWF s →
      s.draggingObject = none → ReachableWF (step s (.press mx my newW newH time))
  | release {s : WorldState} (newW newH time : ℚ) : ReachableWF s →
      ReachableWF (step s (.release newW newH time))
  | move {s : WorldState} (mx my : ℚ) : ReachableWF s →
      ReachableWF (step s (.move mx my))
  | wheel {s : WorldState} (mx delta : ℚ) : ReachableWF s →
      ReachableWF (step s (.wheel mx delta))
  | tick {s : WorldState} : ReachableWF s → ReachableWF (step s .tick)

/-! ### Association-list lookup lemmas -/

theorem lookupCombo_mem {a b r : String}
    {m : List ((String × String) × String)} (h : lookupCombo a b m = some r) :
    ((a, b), r) ∈ m := by
  induction m with
  | nil => simp [lookupCombo] at h
  | cons p rest ih =>
    obtain ⟨k, v⟩ := p
    by_cases hk : k = (a, b)
    · simp [lookupCombo, hk] at h
      simp [hk, h]
    · simp [lookupCombo, hk] at h
      exact List.mem_cons_of_mem _ (ih h)

theorem lookupCombo_eq_none {a b : String}
    {m : List ((String × String) × String)} (h : ∀ r, ((a, b), r) ∉ m) :
    lookupCombo a b m = none := by
  induction m with
  | nil => rfl
  | cons p rest ih =>
    obtain ⟨k, v⟩ := p
    by_cases hk : k = (a, b)
    · exact absurd (by simp [hk] : ((a, b), v) ∈ (k, v) :: rest) (h v)
    · simp only [lookupCombo, if_neg hk]
      exact ih (fun r hr => h r (List.mem_cons_of_mem _ hr))

theorem lookupCombo_of_mem {a b r : String}
    {m : List ((String × String) × String)}
    (hnd : (m.map Prod.fst).Nodup) (h : ((a, b), r) ∈ m) :
    lookupCombo a b m = some r := by
  induction m with
  | nil => simp at h
  | cons p rest ih =>
    obtain ⟨k, v⟩ := p
    simp only [List.map_cons, List.nodup_cons] at hnd
    rcases List.mem_cons.mp h with heq | hmem
    · obtain ⟨hk, hv⟩ := Prod.mk.injEq .. ▸ heq
      simp [lookupCombo, hk.symm, hv]
    · have hk : k ≠ (a, b) := by
        intro hk
        exact hnd.1 (hk ▸ List.mem_map_of_mem Prod.fst hmem)
      simp only [lookupCombo, if_neg hk]
      exact ih hnd.2 hmem

/-- The keys inserted by the `CombinationRegistry` constructor are pairwise
distinct, so `std::map` insertion never overwrites and lookup is first-match
lookup in the insertion list. -/
theorem comboKeysNodup : (combinationList.map Prod.fst).Nodup := by decide

/-- The insertion list is closed under swapping the two names of a key,
with the same result value. -/
theorem comboSwapClosed :
    ∀ p ∈ combinationList, ((p.1.2, p.1.1), p.2) ∈ combinationList := by decide

theorem lookupCombo_swap (a b : String) :
    lookupCombo a b combinationList = lookupCombo b a combinationList := by
  cases h : lookupCombo a b combinationList with
  | none =>
    cases h2 : lookupCombo b a combinationList with
    | none => rfl
    | some r =>
      have hmem := comboSwapClosed _ (lookupCombo_mem h2)
      have := lookupCombo_of_mem comboKeysNodup hmem
      rw [h] at this
      exact absurd this (by simp)
  | some r =>
    have hmem := comboSwapClosed _ (lookupCombo_mem h)
    exact (lookupCombo_of_mem comboKeysNodup hmem).symm ▸ rfl

/-- C3: for every pair of element names `(a, b)`, the combination registry is
symmetric: `getResult(a, b) = getResult(b, a)` and
`isValidCombination(a, b) = isValidCombination(b, a)`. -/
theorem combination_registry_symmetric (a b : String) :
    getResult a b = getResult b a ∧
    isValidCombination a b = isValidCombination b a := by
  unfold getResult isValidCombination
  rw [lookupCombo_swap a b]
  exact ⟨rfl, rfl⟩

/-! ### Every registered result names a catalog element -/

theorem findElement_spec {n : String} {els : List Element} {e : Element}
    (h : findElement n els = some e) : e ∈ els ∧ e.name = n := by
  induction els with
  | nil => simp [findElement] at h
  | cons e0 rest ih =>
    by_cases h0 : e0.name = n
    · simp [findElement, h0] at h
      subst h
      exact ⟨List.mem_cons_self .., h0⟩
    · simp [findElement, h0] at h
      obtain ⟨hm, hn⟩ := ih h
      exact ⟨List.mem_cons_of_mem _ hm, hn⟩

/-- Every result value of the combination table is found by the catalog
search over `initialElements`. -/
theorem comboValuesFound :
    ∀ p ∈ combinationList, (findElement p.2 initialElements).isSome = true := by
  decide

/-! ### Collision-scan lemmas -/

/-- The effect of the scan on an object it examines without stopping:
an overlapping object with no registered result becomes semi-transparent,
every other object is left unchanged. -/
def missMap (dragged : GameObject) (o : GameObject) : GameObject :=
  if !skippedBy dragged o && overlaps dragged o &&
      decide (getResult dragged.elemName o.elemName = "") then
    { o with alpha := 128 }
  else o

theorem missMap_skipped {d o : GameObject} (h : skippedBy d o = true) :
    missMap d o = o := by
  simp [missMap, h]

theorem missMap_no_overlap {d o : GameObject} (h : overlaps d o = false) :
    missMap d o = o := by
  simp [missMap, h]

/-- The objects produced by the scan and the hit it finds do not depend on the
incoming invalid-marker fields. -/
theorem scan_mark_indep (d : GameObject) (t : ℚ) (l : List GameObject) :
    ∀ mx my mt mx2 my2 mt2,
      (scanObjects d t mx my mt l).objectsOut =
        (scanObjects d t mx2 my2 mt2 l).objectsOut ∧
      (scanObjects d t mx my mt l).hit = (scanObjects d t mx2 my2 mt2 l).hit := by
  induction l with
  | nil => intro mx my mt mx2 my2 mt2; exact ⟨rfl, rfl⟩
  | cons o rest ih =>
    intro mx my mt mx2 my2 mt2
    by_cases hs : skippedBy d o = true
    · simpa [scanObjects, hs] using ih mx my mt mx2 my2 mt2
    · rw [Bool.not_eq_true] at hs
      by_cases hov : overlaps d o = true
      · by_cases hr : getResult d.elemName o.elemName = ""
        · simp [scanObjects, hs, hov, hr]
        · simp [scanObjects, hs, hov, hr]
      · rw [Bool.not_eq_true] at hov
        simpa [scanObjects, hs, hov] using ih mx my mt mx2 my2 mt2

/-- A stretch of objects the scan passes over without any effect: each one is
either skipped or does not overlap the dragged object. -/
theorem scan_passive {d : GameObject} {l : List GameObject}
    (h : ∀ o ∈ l, skippedBy d o = true ∨ overlaps d o = false)
    (t mx my mt : ℚ) :
    scanObjects d t mx my mt l = ⟨l, mx, my, mt, none⟩ := by
  induction l with
  | nil => rfl
  | cons o rest ih =>
    have ho := h o (List.mem_cons_self ..)
    have hrest : ∀ o ∈ rest, skippedBy d o = true ∨ overlaps d o = false :=
      fun x hx => h x (List.mem_cons_of_mem _ hx)
    rcases ho with hs | hov
    · simp [scanObjects, hs, ih hrest]
    · by_cases hs : skippedBy d o = true
      · simp [scanObjects, hs, ih hrest]
      · rw [Bool.not_eq_true] at hs
        simp [scanObjects, hs, hov, ih hrest]

/-- The scan over a prefix that yields no hit (every examined object is
skipped, non-overlapping, or a miss), followed by the first valid partner `O`:
the prefix receives exactly the miss side effects (`missMap`), the suffix
after `O` is untouched, and the scan stops at `O`. -/
theorem scan_first_hit {d O : GameObject} {pre post : List GameObject}
    (hpre : ∀ o ∈ pre, skippedBy d o = true ∨ overlaps d o = false ∨
      getResult d.elemName o.elemName = "")
    (hOs : skippedBy d O = false) (hOov : overlaps d O = true)
    (hOr : getResult d.elemName O.elemName ≠ "") (t mx my mt : ℚ) :
    ∃ mx2 my2 mt2,
      scanObjects d t mx my mt (pre ++ O :: post) =
        ⟨pre.map (missMap d) ++ O :: post, mx2, my2, mt2, some O⟩ := by
  induction pre generalizing mx my mt with
  | nil =>
    exact ⟨mx, my, mt, by simp [scanObjects, hOs, hOov, hOr]⟩
  | cons a pre ih =>
    have hrest : ∀ o ∈ pre, skippedBy d o = true ∨ overlaps d o = false ∨
        getResult d.elemName o.elemName = "" :=
      fun x hx => hpre x (List.mem_cons_of_mem _ hx)
    rcases hpre a (List.mem_cons_self ..) with hs | hov | hr
    · obtain ⟨mx2, my2, mt2, heq⟩ := ih hrest mx my mt
      refine ⟨mx2, my2, mt2, ?_⟩
      simp [scanObjects, hs, heq, missMap_skipped hs]
    · by_cases hs : skippedBy d a = true
      · obtain ⟨mx2, my2, mt2, heq⟩ := ih hrest mx my mt
        refine ⟨mx2, my2, mt2, ?_⟩
        simp [scanObjects, hs, heq, missMap_skipped hs]
      · rw [Bool.not_eq_true] at hs
        obtain ⟨mx2, my2, mt2, heq⟩ := ih hrest mx my mt
        refine ⟨mx2, my2, mt2, ?_⟩
        simp [scanObjects, hs, hov, heq, missMap_no_overlap hov]
    · by_cases hs : skippedBy d a = true
      · obtain ⟨mx2, my2, mt2, heq⟩ := ih hrest mx my mt
        refine ⟨mx2, my2, mt2, ?_⟩
        simp [scanObjects, hs, heq, missMap_skipped hs]
      · rw [Bool.not_eq_true] at hs
        by_cases hov : overlaps d a = true
        · obtain ⟨mx2, my2, mt2, heq⟩ :=
            ih hrest (midX d a) (midY d a) (qadd t 1)
          refine ⟨mx2, my2, mt2, ?_⟩
          have hmiss : missMap d a = { a with alpha := 128 } := by
            simp [missMap, hs, hov, hr]
          simp [scanObjects, hs, hov, hr, heq, hmiss]
        · rw [Bool.not_eq_true] at hov
          obtain ⟨mx2, my2, mt2, heq⟩ := ih hrest mx my mt
          refine ⟨mx2, my2, mt2, ?_⟩
          simp [scanObjects, hs, hov, heq, missMap_no_overlap hov]

/-- A release in which the only interaction is a single overlapping miss at
`O`: the prefix and suffix are passive, `O` is flagged semi-transparent, the
invalid marker is set to the midpoint of the dragged object and `O` with
expiry `time + 1`, and no hit is found. -/
theorem scan_single_miss {d O : GameObject} {pre post : List GameObject}
    (hpre : ∀ o ∈ pre, skippedBy d o = true ∨ overlaps d o = false)
    (hpost : ∀ o ∈ post, skippedBy d o = true ∨ overlaps d o = false)
    (hOs : skippedBy d O = false) (hOov : overlaps d O = true)
    (hOr : getResult d.elemName O.elemName = "") (t mx my mt : ℚ) :
    scanObjects d t mx my mt (pre ++ O :: post) =
      ⟨pre ++ { O with alpha := 128 } :: post,
        midX d O, midY d O, qadd t 1, none⟩ := by
  induction pre generalizing mx my mt with
  | nil =>
    simp [scanObjects, hOs, hOov, hOr, scan_passive hpost]
  | cons a pre ih =>
    have hrest : ∀ o ∈ pre, skippedBy d o = true ∨ overlaps d o = false :=
      fun x hx => hpre x (List.mem_cons_of_mem _ hx)
    rcases hpre a (List.mem_cons_self ..) with hs | hov
    · simp [scanObjects, hs, ih hrest]
    · by_cases hs : skippedBy d a = true
      · simp [scanObjects, hs, ih hrest]
      · rw [Bool.not_eq_true] at hs
        simp [scanObjects, hs, hov, ih hrest]

/-- Removing an overlapping miss from the vector does not change which hit the
scan finds: misses never stop the scan. -/
theorem scan_hit_skips_misses {d O : GameObject} (l1 l2 : List GameObject)
    (hOs : skippedBy d O = false) (hOov : overlaps d O = true)
    (hOr : getResult d.elemName O.elemName = "") (t : ℚ) :
    ∀ mx my mt,
      (scanObjects d t mx my mt (l1 ++ O :: l2)).hit =
      (scanObjects d t mx my mt (l1 ++ l2)).hit := by
  induction l1 with
  | nil =>
    intro mx my mt
    have h2 := scan_mark_indep d t l2 (midX d O) (midY d O) (qadd t 1) mx my mt
    simp [scanObjects, hOs, hOov, hOr, h2.2]
  | cons a l1 ih =>
    intro mx my mt
    by_cases hs : skippedBy d a = true
    · simp [scanObjects, hs, ih]
    · rw [Bool.not_eq_true] at hs
      by_cases hov : overlaps d a = true
      · by_cases hr : getResult d.elemName a.elemName = ""
        · simp [scanObjects, hs, hov, hr, ih]
        · simp [scanObjects, hs, hov, hr]
      · rw [Bool.not_eq_true] at hov
        simp [scanObjects, hs, hov, ih]

/-! ### Catalog-update and counting lemmas -/

theorem missMap_id (d o : GameObject) : (missMap d o).id = o.id := by
  unfold missMap
  split <;> rfl

theorem missMap_fields (d o : GameObject) :
    (missMap d o).id = o.id ∧ (missMap d o).elemName = o.elemName ∧
    (missMap d o).posX = o.posX ∧ (missMap d o).posY = o.posY ∧
    (missMap d o).creationTime = o.creationTime ∧
    (missMap d o).isDragging = o.isDragging := by
  unfold missMap
  split <;> exact ⟨rfl, rfl, rfl, rfl, rfl, rfl⟩

theorem map_id_map_missMap (d : GameObject) (l : List GameObject) :
    (l.map (missMap d)).map (fun o => o.id) = l.map (fun o => o.id) := by
  rw [List.map_map]
  exact List.map_congr_left (fun o _ => missMap_id d o)

/-- The catalog search succeeds whenever some element carries the name. -/
theorem findElement_isSome_of_mem {R : String} {els : List Element}
    {e : Element} (hm : e ∈ els) (hn : e.name = R) :
    (findElement R els).isSome = true := by
  induction els with
  | nil => simp at hm
  | cons e0 rest ih =>
    by_cases h0 : e0.name = R
    · simp [findElement, h0]
    · rcases List.mem_cons.mp hm with rfl | hmem
      · exact absurd hn h0
      · simp only [findElement, if_neg h0]
        exact ih hmem

/-- `discoverAndCount` updates exactly the first catalog entry carrying the
result name, setting its flag and incrementing its counter. -/
theorem discoverAndCount_eq_set {els : List Element} {i0 : Nat} {e0 : Element}
    {R : String} (hi : els[i0]? = some e0) (he : e0.name = R)
    (hfirst : ∀ j < i0, ∀ ej, els[j]? = some ej → ej.name ≠ R) :
    discoverAndCount R els =
      els.set i0
        { e0 with discovered := true, creationCount := e0.creationCount + 1 } := by
  induction els generalizing i0 with
  | nil => simp at hi
  | cons e rest ih =>
    cases i0 with
    | zero =>
      simp only [List.getElem?_cons_zero, Option.some.injEq] at hi
      subst hi
      simp [discoverAndCount, he]
    | succ j =>
      have hne : e.name ≠ R :=
        hfirst 0 (Nat.succ_pos j) e (by simp)
      simp only [List.getElem?_cons_succ] at hi
      have hfirst2 : ∀ k < j, ∀ ej, rest[k]? = some ej → ej.name ≠ R := by
        intro k hk ej hej
        exact hfirst (k + 1) (Nat.succ_lt_succ hk) ej (by simpa using hej)
      simp [discoverAndCount, hne, ih hi hfirst2]

theorem countP_or_disjoint {α : Type} {p q : α → Bool} (l : List α)
    (h : ∀ a ∈ l, ¬(p a = true ∧ q a = true)) :
    l.countP (fun a => p a || q a) = l.countP p + l.countP q := by
  induction l with
  | nil => rfl
  | cons a rest ih =>
    have hrest := ih (fun x hx => h x (List.mem_cons_of_mem _ hx))
    have ha := h a (List.mem_cons_self ..)
    simp only [List.countP_cons, hrest]
    cases hp : p a <;> cases hq : q a <;> simp [hp, hq] at ha ⊢ <;> omega

theorem countP_key_eq_one {α β : Type} [DecidableEq β] {f : α → β}
    {l : List α} (hnd : (l.map f).Nodup) {a : α} (ha : a ∈ l) :
    l.countP (fun x => f x = f a) = 1 := by
  induction l with
  | nil => simp at ha
  | cons b rest ih =>
    simp only [List.map_cons, List.nodup_cons] at hnd
    rcases List.mem_cons.mp ha with rfl | hmem
    · have : rest.countP (fun x => f x = f a) = 0 :=
        List.countP_eq_zero.mpr (fun x hx hfx => by
          exact hnd.1 (by simpa [of_decide_eq_true hfx] using
            List.mem_map_of_mem f hx))
      simp [List.countP_cons, this]
    · have hfb : f b ≠ f a := by
        intro hfb
        exact hnd.1 (hfb ▸ List.mem_map_of_mem f hmem)
      simp [List.countP_cons, hfb, ih hnd.2 hmem]

theorem countP_key_eq_zero {α β : Type} [DecidableEq β] {f : α → β}
    {l : List α} {v : β} (hv : v ∉ l.map f) :
    l.countP (fun x => f x = v) = 0 :=
  List.countP_eq_zero.mpr (fun x hx hfx => by
    exact hv (by simpa [of_decide_eq_true hfx] using List.mem_map_of_mem f hx))

theorem length_filter_two_removed {l : List GameObject}
    (hnd : (l.map (fun o => o.id)).Nodup) {x y : Nat} (hxy : x ≠ y)
    (hx : x ∈ l.map (fun o => o.id)) (hy : y ∈ l.map (fun o => o.id)) :
    (l.filter (fun o => !(o.id = x || o.id = y))).length + 2 = l.length := by
  obtain ⟨a, ha, hax⟩ := List.mem_map.mp hx
  obtain ⟨b, hb, hby⟩ := List.mem_map.mp hy
  have hcx : l.countP (fun o => o.id = x) = 1 := by
    rw [← hax]
    exact countP_key_eq_one hnd ha
  have hcy : l.countP (fun o => o.id = y) = 1 := by
    rw [← hby]
    exact countP_key_eq_one hnd hb
  have hdisj : ∀ o ∈ l,
      ¬((decide (o.id = x)) = true ∧ (decide (o.id = y)) = true) := by
    intro o _ h
    exact hxy ((of_decide_eq_true h.1).symm.trans (of_decide_eq_true h.2))
  have hor := countP_or_disjoint l hdisj
  have hsplit := l.length_eq_countP_add_countP
    (fun o => (decide (o.id = x)) || (decide (o.id = y)))
  rw [← List.countP_eq_length_filter]
  have hconv : l.countP
        (fun a => decide (¬((decide (a.id = x) || decide (a.id = y)) = true))) =
      l.countP (fun o => !(decide (o.id = x) || decide (o.id = y))) := by
    apply List.countP_congr
    intro o _
    cases h : (decide (o.id = x) || decide (o.id = y)) <;> simp [h]
  omega

/-- C1: on release of a dragged instance `D`, if `O` is the first instance in
registry order (skipping `D` and dragging instances) that overlaps `D` and
whose pair has a registered result `R`, then collision resolution marks the
first catalog element named `R` discovered and increments its creationCount by
exactly one, adds exactly one new instance of `R` at the midpoint of `D`'s and
`O`'s positions with `D`'s release time as creation time, removes both `D` and
`O` from the registry, preserves every other instance, and performs no further
combination (the registry shrinks by exactly one). -/
theorem combination_hit_resolution
    (st : WorldState) (D O : GameObject) (pre post : List GameObject)
    (R : String) (time newW newH : ℚ) (newId : Nat) (i0 : Nat) (e0 : Element)
    (hsplit : st.objects = pre ++ O :: post)
    (hpre : ∀ o ∈ pre, skippedBy D o = true ∨ overlaps D o = false ∨
      getResult D.elemName o.elemName = "")
    (hOs : skippedBy D O = false) (hOov : overlaps D O = true)
    (hres : getResult D.elemName O.elemName = R) (hR : R ≠ "")
    (hi0 : st.elements[i0]? = some e0) (he0 : e0.name = R)
    (hfirst : ∀ j < i0, st.elements[j]?.map (fun e => e.name) ≠ some R)
    (hnd : (st.objects.map (fun o => o.id)).Nodup)
    (hD : D ∈ st.objects)
    (hfresh : newId ∉ st.objects.map (fun o => o.id)) :
    (checkCollisions D time newId newW newH st).elements =
      st.elements.set i0
        { e0 with discovered := true, creationCount := e0.creationCount + 1 } ∧
    (checkCollisions D time newId newW newH st).objects.filter
        (fun o => o.id = newId) =
      [{ id := newId, elemName := R, posX := (D.posX + O.posX) / 2,
         posY := (D.posY + O.posY) / 2, width := newW, height := newH,
         creationTime := time, isDragging := false, alpha := 255 }] ∧
    (∀ o ∈ (checkCollisions D time newId newW newH st).objects,
      o.id ≠ D.id ∧ o.id ≠ O.id) ∧
    (checkCollisions D time newId newW newH st).objects.length + 1 =
      st.objects.length ∧
    (∀ o ∈ st.objects, o.id ≠ D.id → o.id ≠ O.id →
      ∃ o2 ∈ (checkCollisions D time newId newW newH st).objects,
        o2.id = o.id ∧ o2.elemName = o.elemName ∧ o2.posX = o.posX ∧
        o2.posY = o.posY ∧ o2.creationTime = o.creationTime ∧
        o2.isDragging = o.isDragging) := by
  obtain ⟨mx2, my2, mt2, heq⟩ :=
    scan_first_hit hpre hOs hOov (hres ▸ hR) time st.invalidMarkPosX
      st.invalidMarkPosY st.invalidMarkTime
  have hfirst2 : ∀ j < i0, ∀ ej, st.elements[j]? = some ej → ej.name ≠ R := by
    intro j hj ej hej hname
    exact hfirst j hj (by rw [hej]; simp [hname])
  have he0mem : e0 ∈ st.elements := by
    obtain ⟨hlt, hget⟩ := List.getElem?_eq_some_iff.mp hi0
    exact hget ▸ List.getElem_mem hlt
  obtain ⟨e1, hfind⟩ := Option.isSome_iff_exists.mp
    (findElement_isSome_of_mem he0mem he0)
  have hODne : O.id ≠ D.id ∧ O.isDragging = false := by
    simpa [skippedBy] using hOs
  have hDid : D.id ∈ st.objects.map (fun o => o.id) :=
    List.mem_map_of_mem _ hD
  have hOmem : O ∈ st.objects := by
    rw [hsplit]
    exact List.mem_append_right _ (List.mem_cons_self ..)
  have hOid : O.id ∈ st.objects.map (fun o => o.id) :=
    List.mem_map_of_mem _ hOmem
  have hnewD : newId ≠ D.id := fun h => hfresh (h ▸ hDid)
  have hnewO : newId ≠ O.id := fun h => hfresh (h ▸ hOid)
  set A : List GameObject := pre.map (missMap D) ++ O :: post with hA
  have hAids : A.map (fun o => o.id) = st.objects.map (fun o => o.id) := by
    rw [hA, hsplit, List.map_append, List.map_append, map_id_map_missMap]
  obtain ⟨newRaw, hnewRaw⟩ : ∃ nr : GameObject,
      nr = { id := newId, elemName := R, posX := midX D O, posY := midY D O,
             width := newW, height := newH, creationTime := time,
             isDragging := false, alpha := 255 } := ⟨_, rfl⟩
  have hstep : checkCollisions D time newId newW newH st =
      { st with
        elements := discoverAndCount R st.elements,
        objects := (A ++ [newRaw]).filter
          (fun o => !(o.id = D.id || o.id = O.id)),
        invalidMarkPosX := mx2, invalidMarkPosY := my2,
        invalidMarkTime := mt2 } := by
    unfold checkCollisions
    rw [hsplit, heq]
    simp only [hres, hfind]
    rw [← hnewRaw]
  have helems : (checkCollisions D time newId newW newH st).elements =
      discoverAndCount R st.elements := by
    rw [hstep]
  have hobjs : (checkCollisions D time newId newW newH st).objects =
      (A ++ [newRaw]).filter (fun o => !(o.id = D.id || o.id = O.id)) := by
    rw [hstep]
  have hpnew : ([newRaw].filter (fun o => !(o.id = D.id || o.id = O.id))) =
      [newRaw] := by
    rw [hnewRaw]
    simp [hnewD, hnewO]
  refine ⟨?_, ?_, ?_, ?_, ?_⟩
  · rw [helems]
    exact discoverAndCount_eq_set hi0 he0 hfirst2
  · rw [hobjs, List.filter_append, hpnew, List.filter_append]
    have h1 : (A.filter (fun o => !(o.id = D.id || o.id = O.id))).filter
        (fun o => o.id = newId) = [] := by
      rw [List.filter_eq_nil_iff]
      intro o ho
      have hoA : o ∈ A := List.mem_of_mem_filter ho
      have : o.id ∈ st.objects.map (fun x => x.id) := by
        rw [← hAids]
        exact List.mem_map_of_mem _ hoA
      have hne : o.id ≠ newId := fun h => hfresh (h ▸ this)
      simp [hne]
    rw [h1]
    rw [hnewRaw]
    simp [midX, midY, qhalf_eq, qadd_eq]
  · intro o ho
    rw [hobjs, List.mem_filter] at ho
    have := ho.2
    simp only [Bool.not_eq_eq_eq_not, Bool.not_true, Bool.or_eq_false_iff,
      decide_eq_false_iff_not] at this
    exact this
  · rw [hobjs, List.filter_append, hpnew]
    have hndA : (A.map (fun o => o.id)).Nodup := hAids ▸ hnd
    have hDidA : D.id ∈ A.map (fun o => o.id) := hAids ▸ hDid
    have hOidA : O.id ∈ A.map (fun o => o.id) := hAids ▸ hOid
    have hlen2 := length_filter_two_removed hndA
      (fun h => hODne.1 h.symm) hDidA hOidA
    have hAlen : A.length = st.objects.length := by
      have := congrArg List.length hAids
      simpa using this
    simp only [List.length_append, List.length_cons, List.length_nil]
    omega
  · intro o ho hoD hoO
    rw [hsplit] at ho
    rcases List.mem_append.mp ho with hopre | hocons
    · refine ⟨missMap D o, ?_, ?_⟩
      · rw [hobjs, List.mem_filter]
        constructor
        · exact List.mem_append_left _ (List.mem_append_left _
            (List.mem_map_of_mem _ hopre))
        · simp [missMap_id, hoD, hoO]
      · obtain ⟨f1, f2, f3, f4, f5, f6⟩ := missMap_fields D o
        exact ⟨f1, f2, f3, f4, f5, f6⟩
    · rcases List.mem_cons.mp hocons with rfl | hopost
      · exact absurd rfl hoO
      · refine ⟨o, ?_, rfl, rfl, rfl, rfl, rfl, rfl⟩
        rw [hobjs, List.mem_filter]
        constructor
        · exact List.mem_append_left _ (List.mem_append_right _
            (List.mem_cons_of_mem _ hopost))
        · simp [hoD, hoO]

/-- A concrete dragged Fire instance used in witness scenarios. -/
def fireObjW : GameObject := ⟨1, "Fire", 0, 0, 25, 25, 5, true, 255⟩

/-- A concrete resting Water instance overlapping `fireObjW`. -/
def waterObjW : GameObject := ⟨2, "Water", 10, 10, 25, 25, 3, false, 255⟩

/-- A concrete world state: the startup catalog, a Fire instance dragged over
a Water instance. -/
def hitStateW : WorldState :=
  { elements := initialElements, objects := [fireObjW, waterObjW],
    draggingObject := some fireObjW, invalidMarkPosX := 0,
    invalidMarkPosY := 0, invalidMarkTime := 0, bookOpen := false,
    sidebarScroll := 0, nextId := 3 }

theorem combination_hit_resolution_witness :
    (checkCollisions fireObjW 7 3 25 25 hitStateW).elements =
      initialElements.set 4 ⟨"Steam", "Hot water vapor", true, 1⟩ ∧
    (checkCollisions fireObjW 7 3 25 25 hitStateW).objects.filter
        (fun o => o.id = 3) =
      [{ id := 3, elemName := "Steam",
         posX := (fireObjW.posX + waterObjW.posX) / 2,
         posY := (fireObjW.posY + waterObjW.posY) / 2, width := 25,
         height := 25, creationTime := 7, isDragging := false, alpha := 255 }] ∧
    (checkCollisions fireObjW 7 3 25 25 hitStateW).objects.length + 1 = 2 := by
  have h := combination_hit_resolution hitStateW fireObjW waterObjW
    [fireObjW] [] "Steam" 7 25 25 3 4 ⟨"Steam", "Hot water vapor", false, 0⟩
    rfl (by decide) (by decide) (by decide) (by decide) (by decide)
    (by decide) (by decide) (by decide) (by decide) (by decide) (by decide)
  exact ⟨h.1, h.2.1, h.2.2.2.1⟩

/-- C5: on release of a dragged instance `D` over an overlapping instance `O`
whose pair has no registered result (and no other overlap in this release),
the resolver records the transient invalid marker at the midpoint of `D` and
`O` valid until the release time plus one time-unit, flags `O` as rejected
(semi-transparent) — a flag the next tick resets — mutates no element's
discovered flag or creationCount, removes no instance, and a miss never stops
the scan from examining the remaining candidates for a valid combination. -/
theorem invalid_combination_feedback
    (st : WorldState) (D O : GameObject) (pre post : List GameObject)
    (time newW newH : ℚ) (newId : Nat)
    (hsplit : st.objects = pre ++ O :: post)
    (hpre : ∀ o ∈ pre, skippedBy D o = true ∨ overlaps D o = false)
    (hpost : ∀ o ∈ post, skippedBy D o = true ∨ overlaps D o = false)
    (hOs : skippedBy D O = false) (hOov : overlaps D O = true)
    (hOr : getResult D.elemName O.elemName = "") :
    (checkCollisions D time newId newW newH st).elements = st.elements ∧
    (checkCollisions D time newId newW newH st).objects =
      pre ++ { O with alpha := 128 } :: post ∧
    (checkCollisions D time newId newW newH st).invalidMarkPosX =
      (D.posX + O.posX) / 2 ∧
    (checkCollisions D time newId newW newH st).invalidMarkPosY =
      (D.posY + O.posY) / 2 ∧
    (checkCollisions D time newId newW newH st).invalidMarkTime = time + 1 ∧
    (checkCollisions D time newId newW newH st).objects.length =
      st.objects.length ∧
    (checkCollisions D time newId newW newH st).objects.map (fun o => o.id) =
      st.objects.map (fun o => o.id) ∧
    (∀ o ∈ tickObjects maxObjects
        (checkCollisions D time newId newW newH st).objects, o.alpha = 255) ∧
    (∀ mx my mt l2,
      (scanObjects D time mx my mt (pre ++ O :: l2)).hit =
        (scanObjects D time mx my mt (pre ++ l2)).hit) := by
  have hstep : checkCollisions D time newId newW newH st =
      { st with
        objects := pre ++ { O with alpha := 128 } :: post,
        invalidMarkPosX := midX D O, invalidMarkPosY := midY D O,
        invalidMarkTime := qadd time 1 } := by
    unfold checkCollisions
    rw [hsplit, scan_single_miss hpre hpost hOs hOov hOr]
  rw [hstep]
  refine ⟨rfl, rfl, ?_, ?_, ?_, ?_, ?_, ?_, ?_⟩
  · simp [midX, qhalf_eq, qadd_eq]
  · simp [midY, qhalf_eq, qadd_eq]
  · exact qadd_eq time 1
  · rw [hsplit]
    simp
  · rw [hsplit]
    simp
  · intro o ho
    unfold tickObjects at ho
    obtain ⟨x, _, rfl⟩ := List.mem_map.mp ho
    rfl
  · intro mx my mt l2
    exact scan_hit_skips_misses pre l2 hOs hOov hOr time mx my mt

/-- A concrete resting Steam instance overlapping `fireObjW`; the pair
(Fire, Steam) has no registered result. -/
def steamObjW : GameObject := ⟨2, "Steam", 10, 10, 25, 25, 3, false, 255⟩

/-- A concrete world state: the startup catalog, a Fire instance dragged over
a Steam instance (no registered result for this pair). -/
def missStateW : WorldState :=
  { elements := initialElements, objects := [fireObjW, steamObjW],
    draggingObject := some fireObjW, invalidMarkPosX := 0,
    invalidMarkPosY := 0, invalidMarkTime := 0, bookOpen := false,
    sidebarScroll := 0, nextId := 3 }

theorem invalid_combination_feedback_witness :
    (checkCollisions fireObjW 7 3 25 25 missStateW).elements =
      initialElements ∧
    (checkCollisions fireObjW 7 3 25 25 missStateW).objects =
      [fireObjW, { steamObjW with alpha := 128 }] ∧
    (checkCollisions fireObjW 7 3 25 25 missStateW).invalidMarkTime = 7 + 1 ∧
    (checkCollisions fireObjW 7 3 25 25 missStateW).objects.length = 2 := by
  have h := invalid_combination_feedback missStateW fireObjW steamObjW
    [fireObjW] [] 7 25 25 3 rfl (by decide) (by decide) (by decide)
    (by decide) (by decide)
  exact ⟨h.1, h.2.1, h.2.2.2.2.1, h.2.2.2.2.2.1⟩

theorem getResult_mem_values {a b : String} (h : getResult a b ≠ "") :
    ((a, b), getResult a b) ∈ combinationList := by
  unfold getResult at h ⊢
  cases hl : lookupCombo a b combinationList with
  | none => simp [hl] at h
  | some r => simpa [hl] using lookupCombo_mem hl

/-- C10: every non-empty result of `getResult` is the name of an element
registered in the startup catalog, so the collision resolver's catalog search
always succeeds; consequently, under the startup catalog every first-hit
release spawns exactly one result instance (the silent no-spawn fallthrough
of the search loop is unreachable). -/
theorem combination_results_in_catalog :
    (∀ a b : String, getResult a b ≠ "" →
      (findElement (getResult a b) initialElements).isSome = true ∧
      ∃ e ∈ initialElements, e.name = getResult a b) ∧
    (∀ (st : WorldState) (D O : GameObject) (pre post : List GameObject)
        (time newW newH : ℚ) (newId : Nat),
      st.elements = initialElements →
      st.objects = pre ++ O :: post →
      (∀ o ∈ pre, skippedBy D o = true ∨ overlaps D o = false ∨
        getResult D.elemName o.elemName = "") →
      skippedBy D O = false → overlaps D O = true →
      getResult D.elemName O.elemName ≠ "" →
      newId ∉ st.objects.map (fun o => o.id) → newId ≠ D.id →
      ((checkCollisions D time newId newW newH st).objects.filter
          (fun o => o.id = newId)).length = 1) := by
  constructor
  · intro a b h
    have hfs : (findElement (getResult a b) initialElements).isSome = true :=
      comboValuesFound _ (getResult_mem_values h)
    obtain ⟨e1, hfind⟩ := Option.isSome_iff_exists.mp hfs
    obtain ⟨hmem, hname⟩ := findElement_spec hfind
    exact ⟨hfs, e1, hmem, hname⟩
  · intro st D O pre post time newW newH newId helcat hsplit hpre hOs hOov
      hres hfresh hneD
    obtain ⟨mx2, my2, mt2, heq⟩ :=
      scan_first_hit hpre hOs hOov hres time st.invalidMarkPosX
        st.invalidMarkPosY st.invalidMarkTime
    have hfs : (findElement (getResult D.elemName O.elemName)
        st.elements).isSome = true := by
      rw [helcat]
      exact comboValuesFound _ (getResult_mem_values hres)
    obtain ⟨e1, hfind⟩ := Option.isSome_iff_exists.mp hfs
    have hOmem : O ∈ st.objects := by
      rw [hsplit]
      exact List.mem_append_right _ (List.mem_cons_self ..)
    have hnewO : newId ≠ O.id :=
      fun h => hfresh (h ▸ List.mem_map_of_mem _ hOmem)
    set A : List GameObject := pre.map (missMap D) ++ O :: post with hA
    have hAids : A.map (fun o => o.id) = st.objects.map (fun o => o.id) := by
      rw [hA, hsplit, List.map_append, List.map_append, map_id_map_missMap]
    obtain ⟨newRaw, hnewRaw⟩ : ∃ nr : GameObject,
        nr = { id := newId, elemName := getResult D.elemName O.elemName,
               posX := midX D O, posY := midY D O, width := newW,
               height := newH, creationTime := time, isDragging := false,
               alpha := 255 } := ⟨_, rfl⟩
    have hstep : checkCollisions D time newId newW newH st =
        { st with
          elements := discoverAndCount (getResult D.elemName O.elemName)
            st.elements,
          objects := (A ++ [newRaw]).filter
            (fun o => !(o.id = D.id || o.id = O.id)),
          invalidMarkPosX := mx2, invalidMarkPosY := my2,
          invalidMarkTime := mt2 } := by
      unfold checkCollisions
      rw [hsplit, heq]
      simp only [hfind]
      rw [← hnewRaw]
    have hobjs : (checkCollisions D time newId newW newH st).objects =
        (A ++ [newRaw]).filter (fun o => !(o.id = D.id || o.id = O.id)) := by
      rw [hstep]
    rw [hobjs, List.filter_append]
    have hpnew : ([newRaw].filter (fun o => !(o.id = D.id || o.id = O.id))) =
        [newRaw] := by
      rw [hnewRaw]
      simp [hneD, hnewO]
    rw [hpnew, List.filter_append]
    have h1 : (A.filter (fun o => !(o.id = D.id || o.id = O.id))).filter
        (fun o => o.id = newId) = [] := by
      rw [List.filter_eq_nil_iff]
      intro o ho
      have hoA : o ∈ A := List.mem_of_mem_filter ho
      have : o.id ∈ st.objects.map (fun x => x.id) := by
        rw [← hAids]
        exact List.mem_map_of_mem _ hoA
      have hne : o.id ≠ newId := fun h => hfresh (h ▸ this)
      simp [hne]
    rw [h1, hnewRaw]
    simp

theorem combination_results_in_catalog_witness :
    ((findElement (getResult "Fire" "Water") initialElements).isSome = true ∧
      ∃ e ∈ initialElements, e.name = getResult "Fire" "Water") ∧
    ((checkCollisions fireObjW 7 3 25 25 hitStateW).objects.filter
        (fun o => o.id = 3)).length = 1 :=
  ⟨combination_results_in_catalog.1 "Fire" "Water" (by decide),
   combination_results_in_catalog.2 hitStateW fireObjW waterObjW
     [fireObjW] [] 7 25 25 3 rfl rfl (by decide) (by decide) (by decide)
     (by decide) (by decide) (by decide)⟩

/-! ### `std::min_element` characterisation -/

theorem minKeyVal_le {α : Type} (f : α → ℚ) :
    ∀ (l : List α), ∀ x ∈ l, minKeyVal f l ≤ f x := by
  intro l
  induction l with
  | nil => intro x hx; simp at hx
  | cons a rest ih =>
    intro x hx
    cases rest with
    | nil =>
      rcases List.mem_cons.mp hx with rfl | hx2
      · simp [minKeyVal]
      · simp at hx2
    | cons b t =>
      rcases List.mem_cons.mp hx with rfl | hx2
      · simp only [minKeyVal]
        exact min_le_left _ _
      · simp only [minKeyVal]
        exact le_trans (min_le_right _ _) (ih x hx2)

theorem minKeyIdx_lt_length {α : Type} (f : α → ℚ) :
    ∀ (l : List α), l ≠ [] → minKeyIdx f l < l.length := by
  intro l
  induction l with
  | nil => intro h; exact absurd rfl h
  | cons a rest ih =>
    intro _
    cases rest with
    | nil => simp [minKeyIdx]
    | cons b t =>
      simp only [minKeyIdx]
      split
      · exact Nat.succ_lt_succ (ih (by simp))
      · simp

theorem minKeyIdx_getElem {α : Type} (f : α → ℚ) :
    ∀ (l : List α), l ≠ [] →
      ∃ x, l[minKeyIdx f l]? = some x ∧ f x = minKeyVal f l := by
  intro l
  induction l with
  | nil => intro h; exact absurd rfl h
  | cons a rest ih =>
    intro _
    cases rest with
    | nil => exact ⟨a, rfl, rfl⟩
    | cons b t =>
      simp only [minKeyIdx]
      split
      · next hlt =>
        obtain ⟨x, hx, hfx⟩ := ih (by simp)
        refine ⟨x, by simpa using hx, ?_⟩
        simp only [minKeyVal]
        rw [hfx, min_eq_right (le_of_lt hlt)]
      · next hge =>
        refine ⟨a, rfl, ?_⟩
        simp only [minKeyVal]
        rw [min_eq_left (le_of_not_lt hge)]

theorem minKeyIdx_first {α : Type} (f : α → ℚ) :
    ∀ (l : List α), ∀ j < minKeyIdx f l, ∀ x, l[j]? = some x →
      minKeyVal f l < f x := by
  intro l
  induction l with
  | nil => intro j hj; simp [minKeyIdx] at hj
  | cons a rest ih =>
    intro j hj x hx
    cases rest with
    | nil => simp [minKeyIdx] at hj
    | cons b t =>
      simp only [minKeyIdx] at hj
      by_cases hlt : minKeyVal f (b :: t) < f a
      · rw [if_pos hlt] at hj
        have hmv : minKeyVal f (a :: b :: t) = minKeyVal f (b :: t) := by
          simp only [minKeyVal]
          exact min_eq_right (le_of_lt hlt)
        cases j with
        | zero =>
          simp only [List.getElem?_cons_zero, Option.some.injEq] at hx
          subst hx
          rw [hmv]
          exact hlt
        | succ j2 =>
          simp only [List.getElem?_cons_succ] at hx
          rw [hmv]
          exact ih j2 (Nat.lt_of_succ_lt_succ hj) x hx
      · rw [if_neg hlt] at hj
        simp at hj

theorem minKeyVal_map {α β : Type} (f : β → ℚ) (g : α → β) :
    ∀ (l : List α), minKeyVal f (l.map g) = minKeyVal (fun a => f (g a)) l := by
  intro l
  induction l with
  | nil => rfl
  | cons a rest ih =>
    cases rest with
    | nil => rfl
    | cons b t =>
      simp only [List.map_cons] at ih ⊢
      simp only [minKeyVal, ih]

theorem minKeyIdx_map {α β : Type} (f : β → ℚ) (g : α → β) :
    ∀ (l : List α), minKeyIdx f (l.map g) = minKeyIdx (fun a => f (g a)) l := by
  intro l
  induction l with
  | nil => rfl
  | cons a rest ih =>
    cases rest with
    | nil => rfl
    | cons b t =>
      simp only [List.map_cons] at ih ⊢
      simp only [minKeyIdx, ih]
      rw [← List.map_cons, minKeyVal_map f g]

theorem eraseIdx_map_comm {α β : Type} (g : α → β) :
    ∀ (l : List α) (i : Nat), (l.map g).eraseIdx i = (l.eraseIdx i).map g := by
  intro l
  induction l with
  | nil => intro i; rfl
  | cons a rest ih =>
    intro i
    cases i with
    | zero => rfl
    | succ j => simp [List.eraseIdx_cons_succ, ih j]

theorem evictN_map {α β : Type} (f : β → ℚ) (g : α → β) :
    ∀ (fuel cap : Nat) (l : List α),
      evictN f fuel cap (l.map g) = (evictN (fun a => f (g a)) fuel cap l).map g := by
  intro fuel
  induction fuel with
  | zero => intro cap l; rfl
  | succ fu ih =>
    intro cap l
    simp only [evictN, List.length_map]
    by_cases hle : l.length ≤ cap
    · simp [hle]
    · simp only [hle, if_neg, if_false]
      rw [show evictOnce f (l.map g) = (evictOnce (fun a => f (g a)) l).map g from ?_]
      · exact ih cap _
      · unfold evictOnce
        rw [minKeyIdx_map f g l, eraseIdx_map_comm g]

theorem mem_eq_of_key_eq {γ δ : Type} [DecidableEq δ] {g : γ → δ}
    {l : List γ} (hnd : (l.map g).Nodup) {x P : γ} (hx : x ∈ l) (hP : P ∈ l)
    (h : g x = g P) : x = P := by
  induction l with
  | nil => simp at hx
  | cons a t ih =>
    simp only [List.map_cons, List.nodup_cons] at hnd
    rcases List.mem_cons.mp hx with rfl | hxt
    · rcases List.mem_cons.mp hP with rfl | hPt
      · rfl
      · exact absurd (h ▸ List.mem_map_of_mem g hPt) hnd.1
    · rcases List.mem_cons.mp hP with rfl | hPt
      · exact absurd (h ▸ List.mem_map_of_mem g hxt) hnd.1
      · exact ih hnd.2 hxt hPt

theorem countP_split {γ : Type} (p r : γ → Bool) (l : List γ) :
    l.countP p =
      l.countP (fun a => p a && r a) + l.countP (fun a => p a && !r a) := by
  induction l with
  | nil => rfl
  | cons a t ih =>
    simp only [List.countP_cons, ih]
    cases hp : p a <;> cases hr : r a <;> simp [hp, hr] <;> omega

theorem eraseIdx_eq_filter_of_key_unique {γ δ : Type} [DecidableEq δ]
    (g : γ → δ) :
    ∀ (l : List γ) (i : Nat) (x : γ), l[i]? = some x →
      l.countP (fun y => g y = g x) = 1 →
      l.eraseIdx i = l.filter (fun y => !(g y = g x)) := by
  intro l
  induction l with
  | nil => intro i x hx; simp at hx
  | cons a t ih =>
    intro i x hx hc
    cases i with
    | zero =>
      simp only [List.getElem?_cons_zero, Option.some.injEq] at hx
      subst hx
      have hct : t.countP (fun y => g y = g a) = 0 := by
        have h2 : t.countP (fun y => decide (g y = g a)) + 1 = 1 := by
          simpa [List.countP_cons] using hc
        omega
      have hall : ∀ y ∈ t, ¬(g y = g a) := by
        intro y hy
        exact fun hgy =>
          by simpa [hgy] using (List.countP_eq_zero.mp hct) y hy
      rw [List.eraseIdx_cons_zero]
      have : t.filter (fun y => !(g y = g a)) = t :=
        List.filter_eq_self.mpr (fun y hy => by simp [hall y hy])
      simp [this]
    | succ j =>
      simp only [List.getElem?_cons_succ] at hx
      have hxt : x ∈ t := by
        obtain ⟨hlt, hget⟩ := List.getElem?_eq_some_iff.mp hx
        exact hget ▸ List.getElem_mem hlt
      have hga : ¬(g a = g x) := by
        intro hga
        have h1 : 0 < t.countP (fun y => decide (g y = g x)) :=
          List.countP_pos_iff.mpr ⟨x, hxt, by simp⟩
        have h2 : t.countP (fun y => decide (g y = g x)) + 1 = 1 := by
          simpa [List.countP_cons, hga] using hc
        omega
      have hct : t.countP (fun y => g y = g x) = 1 := by
        simp only [List.countP_cons, hga] at hc
        simpa using hc
      rw [List.eraseIdx_cons_succ]
      simp only [List.filter_cons]
      rw [ih j x hx hct]
      simp [hga]

/-- Strict "older" order on index-annotated entries: earlier creation time,
ties broken by smaller original position (= earlier insertion). -/
def lexLtb {α : Type} (f : α → ℚ) (p q : Nat × α) : Bool :=
  decide (f p.2 < f q.2) || (decide (f p.2 = f q.2) && decide (p.1 < q.1))

/-- Rank of an entry: how many entries of `L` are strictly older than it. -/
def rankIn {α : Type} (f : α → ℚ) (L : List (Nat × α)) (p : Nat × α) : Nat :=
  L.countP (fun q => lexLtb f q p)

/-- Running the eviction loop on an index-annotated list of length `cap + k`
removes exactly the `k` entries of smallest key, ties broken towards the
earlier position: the survivors are the entries with at least `k` strictly
older entries. -/
theorem evictN_eq_filter_rank {α : Type} (f : α → ℚ) :
    ∀ (k fuel cap : Nat) (L : List (Nat × α)),
      L.Pairwise (fun p q => p.1 < q.1) → L.length = cap + k → k ≤ fuel →
      evictN (fun p => f p.2) fuel cap L =
        L.filter (fun p => k ≤ rankIn f L p) := by
  intro k
  induction k with
  | zero =>
    intro fuel cap L hpw hlen hfuel
    have hle : L.length ≤ cap := by omega
    have hev : evictN (fun p => f p.2) fuel cap L = L := by
      cases fuel with
      | zero => rfl
      | succ fu => simp [evictN, hle]
    rw [hev]
    exact (List.filter_eq_self.mpr (fun p _ => by simp)).symm
  | succ k ih =>
    intro fuel cap L hpw hlen hfuel
    cases fuel with
    | zero => omega
    | succ fu =>
      have hgt : ¬L.length ≤ cap := by omega
      have hL0 : L ≠ [] := by
        intro h
        rw [h] at hlen
        simp at hlen
        omega
      obtain ⟨P, hPm, hPval⟩ := minKeyIdx_getElem (fun p => f p.2) L hL0
      obtain ⟨hmlt, hPget⟩ := List.getElem?_eq_some_iff.mp hPm
      have hPmem : P ∈ L := hPget ▸ List.getElem_mem hmlt
      have hndk : (L.map Prod.fst).Nodup :=
        List.pairwise_map.mpr (hpw.imp (fun h => Nat.ne_of_lt h))
      have hcount1 : L.countP (fun q => q.1 = P.1) = 1 := by
        have := countP_key_eq_one (f := Prod.fst) hndk hPmem
        simpa using this
      have hmin_le : ∀ q ∈ L, f P.2 ≤ f q.2 := by
        intro q hq
        rw [hPval]
        exact minKeyVal_le _ L q hq
      have hlex : ∀ q ∈ L, q = P ∨ lexLtb f P q = true := by
        intro q hq
        obtain ⟨j, hjlt, hjget⟩ := List.mem_iff_getElem.mp hq
        rcases lt_trichotomy j (minKeyIdx (fun p => f p.2) L) with hjm | hjm | hjm
        · right
          have := minKeyIdx_first (fun p => f p.2) L j hjm q
            (by rw [List.getElem?_eq_some_iff]; exact ⟨hjlt, hjget⟩)
          rw [← hPval] at this
          simp only [lexLtb]
          simp [this]
        · left
          subst hjm
          exact (hPget.symm.trans hjget).symm
        · by_cases hfq : f P.2 = f q.2
          · right
            have hfst : P.1 < q.1 := by
              have hpwg := List.pairwise_iff_getElem.mp hpw
              have := hpwg _ _ hmlt hjlt hjm
              rw [hPget, hjget] at this
              exact this
            simp only [lexLtb]
            simp [hfq, hfst]
          · right
            have : f P.2 < f q.2 := lt_of_le_of_ne (hmin_le q hq) hfq
            simp only [lexLtb]
            simp [this]
      have hrankP : rankIn f L P = 0 := by
        unfold rankIn
        rw [List.countP_eq_zero]
        intro x hx hlx
        simp only [lexLtb, Bool.or_eq_true, Bool.and_eq_true,
          decide_eq_true_eq] at hlx
        rcases hlx with hlt | ⟨hfeq, hflt⟩
        · exact absurd hlt (not_lt.mpr (hmin_le x hx))
        · rcases hlex x hx with rfl | hPx
          · omega
          · simp only [lexLtb, Bool.or_eq_true, Bool.and_eq_true,
              decide_eq_true_eq] at hPx
            rcases hPx with h2 | ⟨_, h2⟩
            · rw [hfeq] at h2
              exact absurd h2 (lt_irrefl _)
            · omega
      have hE : L.eraseIdx (minKeyIdx (fun p => f p.2) L) =
          L.filter (fun q => !(q.1 = P.1)) := by
        have := eraseIdx_eq_filter_of_key_unique Prod.fst L
          (minKeyIdx (fun p => f p.2) L) P hPm (by simpa using hcount1)
        simpa using this
      have hpwE : (L.eraseIdx (minKeyIdx (fun p => f p.2) L)).Pairwise
          (fun p q => p.1 < q.1) :=
        hpw.sublist (List.eraseIdx_sublist L _)
      have hlenE : (L.eraseIdx (minKeyIdx (fun p => f p.2) L)).length =
          cap + k := by
        rw [List.length_eraseIdx_of_lt hmlt]
        omega
      have hIH := ih fu cap _ hpwE hlenE (by omega)
      have hstep : evictN (fun p => f p.2) (fu + 1) cap L =
          evictN (fun p => f p.2) fu cap
            (L.eraseIdx (minKeyIdx (fun p => f p.2) L)) := by
        simp [evictN, hgt, evictOnce]
      rw [hstep, hIH]
      -- rewrite the erased list as a filter and merge the two filters
      rw [hE, List.filter_filter]
      apply List.filter_congr
      intro q hq
      by_cases hqP : q.1 = P.1
      · have hqeq : q = P := mem_eq_of_key_eq hndk hq hPmem hqP
        subst hqeq
        simp [hrankP, hqP]
      · have hqne : q ≠ P := fun h => hqP (h ▸ rfl)
        have hlexPq : lexLtb f P q = true := (hlex q hq).resolve_left hqne
        -- rank over the filtered list is one less than over L
        have hrank_ge : 1 ≤ rankIn f L q := by
          unfold rankIn
          exact List.countP_pos_iff.mpr ⟨P, hPmem, hlexPq⟩
        have hsplit2 := countP_split (fun x => lexLtb f x q)
          (fun x => x.1 = P.1) L
        have hcongr1 : L.countP (fun x => lexLtb f x q && x.1 = P.1) =
            L.countP (fun x => x.1 = P.1) := by
          apply List.countP_congr
          intro x hx
          by_cases hxP : x.1 = P.1
          · have : x = P := mem_eq_of_key_eq hndk hx hPmem hxP
            subst this
            simp [hxP, hlexPq]
          · simp [hxP]
        have hrankE : rankIn f (L.filter (fun q2 => !(q2.1 = P.1))) q + 1 =
            rankIn f L q := by
          unfold rankIn
          rw [List.countP_filter]
          rw [hcongr1, hcount1] at hsplit2
          omega
        have hiff : (k ≤ rankIn f (L.filter (fun q2 => !(q2.1 = P.1))) q) ↔
            (k + 1 ≤ rankIn f L q) := by omega
        have hd : (decide (q.1 = P.1)) = false := by simp [hqP]
        simp [hd, hiff]

theorem evictN_length_le {α : Type} (f : α → ℚ) :
    ∀ (fuel cap : Nat) (l : List α), l.length ≤ cap + fuel →
      (evictN f fuel cap l).length ≤ cap := by
  intro fuel
  induction fuel with
  | zero =>
    intro cap l h
    simpa [evictN] using h
  | succ fu ih =>
    intro cap l h
    by_cases hle : l.length ≤ cap
    · simp [evictN, hle]
    · simp only [evictN, hle, if_false]
      have hne : l ≠ [] := by
        intro h2
        rw [h2] at hle
        simp at hle
      have hlen : (evictOnce f l).length = l.length - 1 := by
        unfold evictOnce
        exact List.length_eraseIdx_of_lt (minKeyIdx_lt_length f l hne)
      exact ih cap _ (by omega)

/-- C2: after one tick the registry holds at most `maxObjects` instances, and
when it held `cap + k` instances the tick removes exactly the `k` instances of
smallest creation time, ties broken in favour of the earlier-inserted
instance: the survivors are exactly the positions with at least `k` strictly
older entries (`rankIn`), each with its colour reset. The per-frame `update`
is `tickObjects maxObjects`. -/
theorem tick_capacity_and_eviction :
    (∀ (cap : Nat) (l : List GameObject), (tickObjects cap l).length ≤ cap) ∧
    (∀ (cap : Nat) (l : List GameObject) (k : Nat), l.length = cap + k →
      tickObjects cap l =
        (l.enum.filter
            (fun p => k ≤ rankIn (fun o => o.creationTime) l.enum p)).map
          (fun p => resetColor p.2)) ∧
    (∀ st : WorldState, (step st .tick).objects =
      tickObjects maxObjects st.objects) := by
  refine ⟨?_, ?_, fun _ => rfl⟩
  · intro cap l
    unfold tickObjects
    rw [List.length_map]
    exact evictN_length_le _ l.length cap l (by omega)
  · intro cap l k hlen
    unfold tickObjects
    have hl : l = l.enum.map Prod.snd := (List.enum_map_snd l).symm
    have hpw : l.enum.Pairwise (fun p q => p.1 < q.1) := by
      apply List.pairwise_map.mp
      rw [List.enum_map_fst]
      exact List.pairwise_lt_range l.length
    have hmap := evictN_map (fun o => o.creationTime) Prod.snd l.length cap
      l.enum
    rw [List.enum_map_snd] at hmap
    rw [hmap]
    have hrank := evictN_eq_filter_rank (fun o => o.creationTime) k
      l.length cap l.enum hpw (by simpa using hlen) (by omega)
    rw [hrank, List.map_map]
    rfl

theorem tick_capacity_and_eviction_witness :
    (tickObjects 1
        [⟨10, "Fire", 0, 0, 25, 25, 5, false, 128⟩,
         ⟨11, "Water", 0, 0, 25, 25, 5, false, 128⟩,
         ⟨12, "Earth", 0, 0, 25, 25, 2, false, 255⟩]).length ≤ 1 ∧
    tickObjects 1
        [⟨10, "Fire", 0, 0, 25, 25, 5, false, 128⟩,
         ⟨11, "Water", 0, 0, 25, 25, 5, false, 128⟩,
         ⟨12, "Earth", 0, 0, 25, 25, 2, false, 255⟩] =
      [⟨11, "Water", 0, 0, 25, 25, 5, false, 255⟩] := by
  constructor
  · exact tick_capacity_and_eviction.1 1 _
  · have h := tick_capacity_and_eviction.2.1 1
      [⟨10, "Fire", 0, 0, 25, 25, 5, false, 128⟩,
       ⟨11, "Water", 0, 0, 25, 25, 5, false, 128⟩,
       ⟨12, "Earth", 0, 0, 25, 25, 2, false, 255⟩] 2 rfl
    rw [h]
    decide

theorem map_eq_self_of {γ : Type} {f : γ → γ} {l : List γ}
    (h : ∀ x ∈ l, f x = x) : l.map f = l := by
  induction l with
  | nil => rfl
  | cons a t ih =>
    rw [List.map_cons, h a (List.mem_cons_self ..),
      ih (fun x hx => h x (List.mem_cons_of_mem _ hx))]

theorem length_filter_one_removed {l : List GameObject}
    (hnd : (l.map (fun o => o.id)).Nodup) {x : Nat}
    (hx : x ∈ l.map (fun o => o.id)) :
    (l.filter (fun o => !(o.id = x))).length + 1 = l.length := by
  obtain ⟨a, ha, hax⟩ := List.mem_map.mp hx
  have hcx : l.countP (fun o => o.id = x) = 1 := by
    rw [← hax]
    exact countP_key_eq_one hnd ha
  have hsplit := l.length_eq_countP_add_countP (fun o => decide (o.id = x))
  rw [← List.countP_eq_length_filter]
  have hconv : l.countP (fun a => decide (¬(decide (a.id = x) = true))) =
      l.countP (fun o => !(decide (o.id = x))) := by
    apply List.countP_congr
    intro o _
    cases h : decide (o.id = x) <;> simp [h]
  omega

/-- C9: releasing a dragged instance over the trash bin removes exactly that
instance — no combination check runs: the catalog (every discovered flag and
creationCount), the invalid marker, and every other instance are unchanged. -/
theorem trash_drop_removes_exactly_dragged
    (st : WorldState) (d : GameObject) (newW newH time : ℚ)
    (hbook : st.bookOpen = false)
    (hdrag : st.draggingObject = some d)
    (htrash : d.bounds.intersects trashRect = true) :
    (step st (.release newW newH time)).elements = st.elements ∧
    (step st (.release newW newH time)).objects =
      st.objects.filter (fun o => !(o.id = d.id)) ∧
    (step st (.release newW newH time)).invalidMarkPosX = st.invalidMarkPosX ∧
    (step st (.release newW newH time)).invalidMarkPosY = st.invalidMarkPosY ∧
    (step st (.release newW newH time)).invalidMarkTime = st.invalidMarkTime ∧
    (step st (.release newW newH time)).draggingObject = none ∧
    ((st.objects.map (fun o => o.id)).Nodup → d ∈ st.objects →
      (step st (.release newW newH time)).objects.length + 1 =
        st.objects.length) ∧
    (∀ o ∈ st.objects, o.id ≠ d.id →
      o ∈ (step st (.release newW newH time)).objects) := by
  have hmap : (st.objects.filter (fun o => !(o.id = d.id))).map
      (fun o => if o.id = d.id then { o with isDragging := false } else o) =
      st.objects.filter (fun o => !(o.id = d.id)) := by
    apply map_eq_self_of
    intro x hx
    have h2 := (List.mem_filter.mp hx).2
    simp only [Bool.not_eq_eq_eq_not, Bool.not_true,
      decide_eq_false_iff_not] at h2
    simp [h2]
  have hstep : step st (.release newW newH time) =
      { st with
        objects := st.objects.filter (fun o => !(o.id = d.id)),
        draggingObject := none } := by
    show handleRelease newW newH time st = _
    unfold handleRelease
    rw [hbook, hdrag]
    simp only [Bool.false_eq_true, if_false, htrash, if_true, hmap]
  have hobjs : (step st (.release newW newH time)).objects =
      st.objects.filter (fun o => !(o.id = d.id)) := by
    rw [hstep]
  refine ⟨by rw [hstep], hobjs, by rw [hstep], by rw [hstep], by rw [hstep],
    by rw [hstep], ?_, ?_⟩
  · intro hnd hdm
    rw [hobjs]
    exact length_filter_one_removed hnd (List.mem_map_of_mem _ hdm)
  · intro o ho hne
    rw [hobjs]
    exact List.mem_filter.mpr ⟨ho, by simp [hne]⟩

/-- A concrete dragged Fire instance positioned over the trash bin. -/
def trashedObjW : GameObject := ⟨1, "Fire", 20, 530, 25, 25, 5, true, 255⟩

/-- A concrete world state with `trashedObjW` dragged over the trash bin. -/
def trashStateW : WorldState :=
  { elements := initialElements, objects := [trashedObjW, waterObjW],
    draggingObject := some trashedObjW, invalidMarkPosX := 0,
    invalidMarkPosY := 0, invalidMarkTime := 0, bookOpen := false,
    sidebarScroll := 0, nextId := 3 }

theorem trash_drop_removes_exactly_dragged_witness :
    (step trashStateW (.release 25 25 9)).elements = initialElements ∧
    (step trashStateW (.release 25 25 9)).objects =
      [trashedObjW, waterObjW].filter (fun o => !(o.id = trashedObjW.id)) ∧
    (step trashStateW (.release 25 25 9)).objects.length + 1 = 2 := by
  have h := trash_drop_removes_exactly_dragged trashStateW trashedObjW 25 25 9
    rfl rfl (by decide)
  exact ⟨h.1, h.2.1, h.2.2.2.2.2.2.1 (by decide) (by decide)⟩

theorem tickObjects_length_le (cap : Nat) (l : List GameObject) :
    (tickObjects cap l).length ≤ cap := by
  unfold tickObjects
  rw [List.length_map]
  exact evictN_length_le _ l.length cap l (by omega)

/-- With the registry at (or beyond) capacity, the sidebar spawn loop never
fires: its guard `objects.size() < maxObjects` fails at every button. -/
theorem findSpawnIdx_none_of_full {objCount : Nat} (h : maxObjects ≤ objCount)
    (mx my scroll : ℚ) :
    ∀ (els : List Element) (i d : Nat),
      findSpawnIdx mx my scroll objCount els i d = none := by
  have hnc : ¬(objCount < maxObjects) := Nat.not_lt.mpr h
  intro els
  induction els with
  | nil => intro i d; rfl
  | cons e rest ih =>
    intro i d
    by_cases hdisc : e.discovered <;> simp [findSpawnIdx, hdisc, hnc, ih]

theorem map_id_map_dragMark (oid : Nat) (l : List GameObject) :
    (l.map (fun x => if x.id = oid then { x with isDragging := true } else x)).map
        (fun o => o.id) = l.map (fun o => o.id) := by
  rw [List.map_map]
  apply List.map_congr_left
  intro x _
  by_cases h : x.id = oid <;> simp [h]

/-- C4: an explicit user-initiated spawn attempted while the registry already
holds `maxObjects` instances is refused atomically — no instance is added and
no element's creationCount is incremented (the catalog is untouched) — whereas
a combination-produced spawn is never refused this way: even in a state beyond
capacity the hit spawns its result instance, the registry still exceeds
`maxObjects`, and only the next tick's eviction restores the bound. -/
theorem spawn_capacity_asymmetry :
    (∀ (mx my newW newH time : ℚ) (st : WorldState),
      maxObjects ≤ st.objects.length →
      (step st (.press mx my newW newH time)).elements = st.elements ∧
      (step st (.press mx my newW newH time)).objects.length =
        st.objects.length ∧
      (step st (.press mx my newW newH time)).objects.map (fun o => o.id) =
        st.objects.map (fun o => o.id)) ∧
    (∀ (st : WorldState) (D O : GameObject) (pre post : List GameObject)
        (time newW newH : ℚ) (newId : Nat),
      st.objects = pre ++ O :: post →
      (∀ o ∈ pre, skippedBy D o = true ∨ overlaps D o = false ∨
        getResult D.elemName o.elemName = "") →
      skippedBy D O = false → overlaps D O = true →
      getResult D.elemName O.elemName ≠ "" →
      (findElement (getResult D.elemName O.elemName) st.elements).isSome =
        true →
      (st.objects.map (fun o => o.id)).Nodup → D ∈ st.objects →
      newId ∉ st.objects.map (fun o => o.id) →
      st.objects.length = maxObjects + 2 →
      maxObjects < (checkCollisions D time newId newW newH st).objects.length ∧
      ((checkCollisions D time newId newW newH st).objects.filter
          (fun o => o.id = newId)).length = 1 ∧
      (tickObjects maxObjects
          (checkCollisions D time newId newW newH st).objects).length ≤
        maxObjects) := by
  constructor
  · intro mx my newW newH time st hfull
    have hspawn := findSpawnIdx_none_of_full hfull mx my st.sidebarScroll
      st.elements 0 0
    by_cases hbo : bookAfterPress st.bookOpen mx my = true
    · simp [step, handlePress, hbo]
    · rw [Bool.not_eq_true] at hbo
      cases hdt : findDragTarget mx my st.objects with
      | none => simp [step, handlePress, hbo, hspawn, hdt]
      | some o =>
        refine ⟨by simp [step, handlePress, hbo, hspawn, hdt],
          by simp [step, handlePress, hbo, hspawn, hdt], ?_⟩
        simp only [step, handlePress, hbo, hspawn, hdt, Bool.false_eq_true,
          if_false]
        exact map_id_map_dragMark o.id st.objects
  · intro st D O pre post time newW newH newId hsplit hpre hOs hOov hres
      hfind hnd hD hfresh hlen
    obtain ⟨mx2, my2, mt2, heq⟩ :=
      scan_first_hit hpre hOs hOov hres time st.invalidMarkPosX
        st.invalidMarkPosY st.invalidMarkTime
    obtain ⟨e1, hfindel⟩ := Option.isSome_iff_exists.mp hfind
    have hODne : O.id ≠ D.id ∧ O.isDragging = false := by
      simpa [skippedBy] using hOs
    have hDid : D.id ∈ st.objects.map (fun o => o.id) :=
      List.mem_map_of_mem _ hD
    have hOmem : O ∈ st.objects := by
      rw [hsplit]
      exact List.mem_append_right _ (List.mem_cons_self ..)
    have hOid : O.id ∈ st.objects.map (fun o => o.id) :=
      List.mem_map_of_mem _ hOmem
    have hnewD : newId ≠ D.id := fun h => hfresh (h ▸ hDid)
    have hnewO : newId ≠ O.id := fun h => hfresh (h ▸ hOid)
    set A : List GameObject := pre.map (missMap D) ++ O :: post with hA
    have hAids : A.map (fun o => o.id) = st.objects.map (fun o => o.id) := by
      rw [hA, hsplit, List.map_append, List.map_append, map_id_map_missMap]
    obtain ⟨newRaw, hnewRaw⟩ : ∃ nr : GameObject,
        nr = { id := newId, elemName := getResult D.elemName O.elemName,
               posX := midX D O, posY := midY D O, width := newW,
               height := newH, creationTime := time, isDragging := false,
               alpha := 255 } := ⟨_, rfl⟩
    have hstep : checkCollisions D time newId newW newH st =
        { st with
          elements := discoverAndCount (getResult D.elemName O.elemName)
            st.elements,
          objects := (A ++ [newRaw]).filter
            (fun o => !(o.id = D.id || o.id = O.id)),
          invalidMarkPosX := mx2, invalidMarkPosY := my2,
          invalidMarkTime := mt2 } := by
      unfold checkCollisions
      rw [hsplit, heq]
      simp only [hfindel]
      rw [← hnewRaw]
    have hobjs : (checkCollisions D time newId newW newH st).objects =
        (A ++ [newRaw]).filter (fun o => !(o.id = D.id || o.id = O.id)) := by
      rw [hstep]
    have hpnew : ([newRaw].filter (fun o => !(o.id = D.id || o.id = O.id))) =
        [newRaw] := by
      rw [hnewRaw]
      simp [hnewD, hnewO]
    have hndA : (A.map (fun o => o.id)).Nodup := hAids ▸ hnd
    have hDidA : D.id ∈ A.map (fun o => o.id) := hAids ▸ hDid
    have hOidA : O.id ∈ A.map (fun o => o.id) := hAids ▸ hOid
    have hlen2 := length_filter_two_removed hndA
      (fun h => hODne.1 h.symm) hDidA hOidA
    have hAlen : A.length = st.objects.length := by
      have := congrArg List.length hAids
      simpa using this
    have hlenout : (checkCollisions D time newId newW newH st).objects.length +
        1 = st.objects.length := by
      rw [hobjs, List.filter_append, hpnew]
      simp only [List.length_append, List.length_cons, List.length_nil]
      omega
    refine ⟨by omega, ?_, tickObjects_length_le _ _⟩
    rw [hobjs, List.filter_append, hpnew, List.filter_append]
    have h1 : (A.filter (fun o => !(o.id = D.id || o.id = O.id))).filter
        (fun o => o.id = newId) = [] := by
      rw [List.filter_eq_nil_iff]
      intro o ho
      have hoA : o ∈ A := List.mem_of_mem_filter ho
      have : o.id ∈ st.objects.map (fun x => x.id) := by
        rw [← hAids]
        exact List.mem_map_of_mem _ hoA
      have hne : o.id ≠ newId := fun h => hfresh (h ▸ this)
      simp [hne]
    rw [h1, hnewRaw]
    simp

/-- Fifty far-away filler instances with distinct identities. -/
def fillerObjs : List GameObject :=
  (List.range maxObjects).map
    (fun i => ⟨i + 10, "Fire", 1000, 1000, 25, 25, 0, false, 255⟩)

/-- A world state exactly at capacity. -/
def fullStateW : WorldState :=
  { elements := initialElements, objects := fillerObjs,
    draggingObject := none, invalidMarkPosX := 0, invalidMarkPosY := 0,
    invalidMarkTime := 0, bookOpen := false, sidebarScroll := 0,
    nextId := 100 }

/-- A world state two over capacity, with a Fire instance dragged over a
Water instance. -/
def overfullStateW : WorldState :=
  { elements := initialElements,
    objects := fireObjW :: waterObjW :: fillerObjs,
    draggingObject := some fireObjW, invalidMarkPosX := 0,
    invalidMarkPosY := 0, invalidMarkTime := 0, bookOpen := false,
    sidebarScroll := 0, nextId := 100 }

theorem spawn_capacity_asymmetry_witness :
    ((step fullStateW (.press 710 15 25 25 9)).elements =
        fullStateW.elements ∧
      (step fullStateW (.press 710 15 25 25 9)).objects.length =
        fullStateW.objects.length ∧
      (step fullStateW (.press 710 15 25 25 9)).objects.map (fun o => o.id) =
        fullStateW.objects.map (fun o => o.id)) ∧
    (maxObjects <
        (checkCollisions fireObjW 7 100 25 25 overfullStateW).objects.length ∧
      ((checkCollisions fireObjW 7 100 25 25 overfullStateW).objects.filter
          (fun o => o.id = 100)).length = 1 ∧
      (tickObjects maxObjects
          (checkCollisions fireObjW 7 100 25 25
            overfullStateW).objects).length ≤ maxObjects) :=
  ⟨spawn_capacity_asymmetry.1 710 15 25 25 9 fullStateW (by decide),
   spawn_capacity_asymmetry.2 overfullStateW fireObjW waterObjW [fireObjW]
     fillerObjs 7 25 25 100 rfl (by decide) (by decide) (by decide)
     (by decide) (by decide) (by decide) (by decide) (by decide) (by decide)⟩

/-! ### Structural lemmas about the scan and the world-state transitions,
used for the reachability invariants -/

/-- Every object the scan outputs is an input object, possibly with its alpha
set to 128. -/
theorem scan_objectsOut_shape (d : GameObject) (t mx my mt : ℚ) :
    ∀ l : List GameObject, ∀ o2 ∈ (scanObjects d t mx my mt l).objectsOut,
      ∃ o ∈ l, o2 = o ∨ o2 = { o with alpha := 128 } := by
  intro l
  induction l generalizing mx my mt with
  | nil => intro o2 h; simp [scanObjects] at h
  | cons o rest ih =>
    intro o2 h2
    by_cases hs : skippedBy d o = true
    · simp only [scanObjects, hs, if_true] at h2
      rcases List.mem_cons.mp h2 with h | hmem
      · exact ⟨o, List.mem_cons_self .., Or.inl h⟩
      · obtain ⟨x, hx, hor⟩ := ih mx my mt o2 hmem
        exact ⟨x, List.mem_cons_of_mem _ hx, hor⟩
    · rw [Bool.not_eq_true] at hs
      by_cases hov : overlaps d o = true
      · by_cases hr : getResult d.elemName o.elemName = ""
        · simp only [scanObjects, hs, hov, hr, Bool.false_eq_true, if_false,
            if_true] at h2
          rcases List.mem_cons.mp h2 with h | hmem
          · exact ⟨o, List.mem_cons_self .., Or.inr h⟩
          · obtain ⟨x, hx, hor⟩ := ih _ _ _ o2 hmem
            exact ⟨x, List.mem_cons_of_mem _ hx, hor⟩
        · simp only [scanObjects, hs, hov, hr, Bool.false_eq_true, if_false,
            if_true] at h2
          rcases List.mem_cons.mp h2 with h | hmem
          · exact ⟨o, List.mem_cons_self .., Or.inl h⟩
          · exact ⟨o2, List.mem_cons_of_mem _ hmem, Or.inl rfl⟩
      · rw [Bool.not_eq_true] at hov
        simp only [scanObjects, hs, hov, Bool.false_eq_true, if_false] at h2
        rcases List.mem_cons.mp h2 with h | hmem
        · exact ⟨o, List.mem_cons_self .., Or.inl h⟩
        · obtain ⟨x, hx, hor⟩ := ih mx my mt o2 hmem
          exact ⟨x, List.mem_cons_of_mem _ hx, hor⟩

/-- The scan permutes no object and changes no identity: the output identity
list is the input identity list. -/
theorem scan_objectsOut_ids (d : GameObject) (t mx my mt : ℚ) :
    ∀ l : List GameObject,
      (scanObjects d t mx my mt l).objectsOut.map (fun o => o.id) =
        l.map (fun o => o.id) := by
  intro l
  induction l generalizing mx my mt with
  | nil => rfl
  | cons o rest ih =>
    by_cases hs : skippedBy d o = true
    · simp [scanObjects, hs, ih]
    · rw [Bool.not_eq_true] at hs
      by_cases hov : overlaps d o = true
      · by_cases hr : getResult d.elemName o.elemName = ""
        · simp [scanObjects, hs, hov, hr, ih]
        · simp [scanObjects, hs, hov, hr]
      · rw [Bool.not_eq_true] at hov
        simp [scanObjects, hs, hov, ih]

/-- Every object output by `checkCollisions` either keeps the identity and
dragging flag of an input object, or is the freshly spawned result instance
(with `isDragging = false`). -/
theorem checkCollisions_objects_shape (dragged : GameObject) (time : ℚ)
    (newId : Nat) (newW newH : ℚ) (st : WorldState) :
    ∀ o2 ∈ (checkCollisions dragged time newId newW newH st).objects,
      (∃ o ∈ st.objects, o2.id = o.id ∧ o2.isDragging = o.isDragging) ∨
      (o2.id = newId ∧ o2.isDragging = false) := by
  intro o2 h2
  unfold checkCollisions at h2
  cases hhit : (scanObjects dragged time st.invalidMarkPosX st.invalidMarkPosY
      st.invalidMarkTime st.objects).hit with
  | none =>
    simp only [hhit] at h2
    obtain ⟨o, ho, hor⟩ := scan_objectsOut_shape dragged time
      st.invalidMarkPosX st.invalidMarkPosY st.invalidMarkTime st.objects o2 h2
    rcases hor with h | h
    · exact Or.inl ⟨o, ho, by rw [h], by rw [h]⟩
    · exact Or.inl ⟨o, ho, by rw [h], by rw [h]⟩
  | some other =>
    simp only [hhit] at h2
    have h3 := List.mem_of_mem_filter h2
    cases hfind : findElement (getResult dragged.elemName other.elemName)
        st.elements with
    | some e1 =>
      rw [hfind] at h3
      rcases List.mem_append.mp h3 with hmem | hnew
      · obtain ⟨o, ho, hor⟩ := scan_objectsOut_shape dragged time
          st.invalidMarkPosX st.invalidMarkPosY st.invalidMarkTime
          st.objects o2 hmem
        rcases hor with h | h
        · exact Or.inl ⟨o, ho, by rw [h], by rw [h]⟩
        · exact Or.inl ⟨o, ho, by rw [h], by rw [h]⟩
      · rcases List.mem_cons.mp hnew with rfl | habs
        · exact Or.inr ⟨rfl, rfl⟩
        · simp at habs
    | none =>
      rw [hfind] at h3
      obtain ⟨o, ho, hor⟩ := scan_objectsOut_shape dragged time
        st.invalidMarkPosX st.invalidMarkPosY st.invalidMarkTime
        st.objects o2 h3
      rcases hor with h | h
      · exact Or.inl ⟨o, ho, by rw [h], by rw [h]⟩
      · exact Or.inl ⟨o, ho, by rw [h], by rw [h]⟩

/-- The identity list produced by `checkCollisions` is obtained from the input
identity list, possibly extended by `newId`, by a filter; in particular it is
duplicate-free whenever the input identities plus `newId` are. -/
theorem checkCollisions_objects_ids_nodup (dragged : GameObject) (time : ℚ)
    (newId : Nat) (newW newH : ℚ) (st : WorldState)
    (hnd : (st.objects.map (fun o => o.id)).Nodup)
    (hfresh : newId ∉ st.objects.map (fun o => o.id)) :
    ((checkCollisions dragged time newId newW newH st).objects.map
      (fun o => o.id)).Nodup := by
  unfold checkCollisions
  cases hhit : (scanObjects dragged time st.invalidMarkPosX st.invalidMarkPosY
      st.invalidMarkTime st.objects).hit with
  | none =>
    simp only [hhit]
    rw [scan_objectsOut_ids]
    exact hnd
  | some other =>
    simp only [hhit]
    have hsub : ∀ (l : List GameObject) (p : GameObject → Bool),
        List.Sublist ((l.filter p).map (fun o => o.id))
          (l.map (fun o => o.id)) := by
      intro l p
      exact (List.filter_sublist l).map _
    cases hfind : findElement (getResult dragged.elemName other.elemName)
        st.elements with
    | some e1 =>
      apply List.Nodup.sublist (hsub _ _)
      rw [List.map_append, scan_objectsOut_ids]
      simp only [List.map_cons, List.map_nil]
      rw [List.nodup_append]
      refine ⟨hnd, List.nodup_singleton _, ?_⟩
      intro x hx
      simp only [List.mem_singleton]
      intro hx2
      exact hfresh (hx2 ▸ hx)
    | none =>
      apply List.Nodup.sublist (hsub _ _)
      rw [scan_objectsOut_ids]
      exact hnd

theorem map_ids_of_id_preserving {f : GameObject → GameObject}
    (hf : ∀ o, (f o).id = o.id) (l : List GameObject) :
    (l.map f).map (fun o => o.id) = l.map (fun o => o.id) := by
  rw [List.map_map]
  exact List.map_congr_left fun o _ => hf o

theorem countP_le_one_of_common_id {l : List GameObject}
    {p : GameObject → Bool} {x : Nat}
    (hnd : (l.map (fun o => o.id)).Nodup)
    (hcommon : ∀ o ∈ l, p o = true → o.id = x) :
    l.countP p ≤ 1 := by
  induction l with
  | nil => simp
  | cons a t ih =>
    simp only [List.map_cons, List.nodup_cons] at hnd
    rw [List.countP_cons]
    by_cases hp : p a = true
    · have hax : a.id = x := hcommon a (List.mem_cons_self ..) hp
      have hct : t.countP p = 0 := by
        rw [List.countP_eq_zero]
        intro y hy hpy
        have hyx := hcommon y (List.mem_cons_of_mem _ hy) hpy
        exact hnd.1 ((hax.trans hyx.symm) ▸ List.mem_map_of_mem _ hy)
      simp [hp, hct]
    · rw [Bool.not_eq_true] at hp
      have := ih hnd.2 (fun y hy hpy => hcommon y (List.mem_cons_of_mem _ hy) hpy)
      simp [hp]
      omega

theorem evictN_sublist {α : Type} (f : α → ℚ) :
    ∀ (fuel cap : Nat) (l : List α), List.Sublist (evictN f fuel cap l) l := by
  intro fuel
  induction fuel with
  | zero => intro cap l; exact List.Sublist.refl l
  | succ fu ih =>
    intro cap l
    by_cases hle : l.length ≤ cap
    · simp [evictN, hle]
    · simp only [evictN, hle, if_false]
      have h1 : List.Sublist (evictOnce f l) l := by
        unfold evictOnce
        exact List.eraseIdx_sublist l _
      exact (ih cap _).trans h1

/-- The inductive invariant behind the single-dragger property: object
identities are duplicate-free and below the allocation counter, the dragged
shadow's identity is below the counter, and every dragging instance in the
registry carries the identity of the current `draggingObject`. -/
def dragInv (s : WorldState) : Prop :=
  (s.objects.map (fun o => o.id)).Nodup ∧
  (∀ o ∈ s.objects, o.id < s.nextId) ∧
  (∀ d, s.draggingObject = some d → d.id < s.nextId) ∧
  (∀ o ∈ s.objects, o.isDragging = true →
    ∃ d, s.draggingObject = some d ∧ o.id = d.id)

theorem dragInv_congr {s s2 : WorldState} (h : dragInv s)
    (ho : s2.objects = s.objects) (hd : s2.draggingObject = s.draggingObject)
    (hn : s2.nextId = s.nextId) : dragInv s2 := by
  obtain ⟨h1, h2, h3, h4⟩ := h
  refine ⟨by rw [ho]; exact h1, by rw [ho, hn]; exact h2,
    by rw [hd, hn]; exact h3, by rw [ho, hd]; exact h4⟩

theorem dragInv_append_fresh {s : WorldState} (h : dragInv s)
    {nw : GameObject} (hid : nw.id = s.nextId) (hdg : nw.isDragging = false)
    {s2 : WorldState} (ho : s2.objects = s.objects ++ [nw])
    (hd : s2.draggingObject = s.draggingObject)
    (hn : s2.nextId = s.nextId + 1) : dragInv s2 := by
  obtain ⟨h1, h2, h3, h4⟩ := h
  refine ⟨?_, ?_, ?_, ?_⟩
  · rw [ho, List.map_append, List.nodup_append]
    refine ⟨h1, by simp, ?_⟩
    intro x hx
    simp only [List.map_cons, List.map_nil, List.mem_singleton]
    intro hx2
    obtain ⟨o, hom, hoid⟩ := List.mem_map.mp hx
    have := h2 o hom
    omega
  · intro o hom
    rw [ho] at hom
    rcases List.mem_append.mp hom with hm | hm
    · have := h2 o hm
      omega
    · rcases List.mem_cons.mp hm with rfl | habs
      · omega
      · simp at habs
  · intro d hd2
    rw [hd] at hd2
    have := h3 d hd2
    omega
  · intro o hom hodrag
    rw [ho] at hom
    rcases List.mem_append.mp hom with hm | hm
    · obtain ⟨d, hdd, hdid⟩ := h4 o hm hodrag
      exact ⟨d, hd ▸ hdd, hdid⟩
    · rcases List.mem_cons.mp hm with rfl | habs
      · rw [hdg] at hodrag
        exact absurd hodrag (by simp)
      · simp at habs

theorem dragInv_dragMark {s : WorldState} (h : dragInv s)
    (hnodrag : ∀ o ∈ s.objects, o.isDragging = false)
    {o : GameObject} (hom : o ∈ s.objects) {s2 : WorldState}
    (ho : s2.objects = s.objects.map
      (fun x => if x.id = o.id then { x with isDragging := true } else x))
    (hd : s2.draggingObject = some { o with isDragging := true })
    (hn : s2.nextId = s.nextId) : dragInv s2 := by
  obtain ⟨h1, h2, h3, h4⟩ := h
  have hidpres : ∀ x : GameObject,
      ((fun x => if x.id = o.id then { x with isDragging := true } else x)
        x).id = x.id := by
    intro x
    by_cases hx : x.id = o.id <;> simp [hx]
  refine ⟨?_, ?_, ?_, ?_⟩
  · rw [ho, map_ids_of_id_preserving hidpres]
    exact h1
  · intro x hx
    rw [ho] at hx
    obtain ⟨y, hy, rfl⟩ := List.mem_map.mp hx
    rw [hidpres y, hn]
    exact h2 y hy
  · intro d hd2
    rw [hd] at hd2
    have hde := Option.some.inj hd2
    rw [← hde, hn]
    exact h2 o hom
  · intro x hx hxdrag
    rw [ho] at hx
    obtain ⟨y, hy, rfl⟩ := List.mem_map.mp hx
    refine ⟨{ o with isDragging := true }, hd, ?_⟩
    by_cases hyo : y.id = o.id
    · simp [hyo]
    · simp only [hyo, if_false] at hxdrag
      exact absurd hxdrag (by simp [hnodrag y hy])

theorem dragInv_tick {s : WorldState} (h : dragInv s) :
    dragInv (step s .tick) := by
  obtain ⟨h1, h2, h3, h4⟩ := h
  have hsub : List.Sublist
      (evictN (fun o => o.creationTime) s.objects.length maxObjects s.objects)
      s.objects := evictN_sublist _ _ _ _
  have hobj : (step s .tick).objects = tickObjects maxObjects s.objects := rfl
  refine ⟨?_, ?_, ?_, ?_⟩
  · rw [hobj]
    unfold tickObjects
    rw [map_ids_of_id_preserving (f := resetColor) (fun o => rfl)]
    exact h1.sublist (hsub.map _)
  · intro o ho
    rw [hobj] at ho
    unfold tickObjects at ho
    obtain ⟨x, hx, rfl⟩ := List.mem_map.mp ho
    exact h2 x (hsub.subset hx)
  · intro d hd
    exact h3 d hd
  · intro o ho hdrag
    rw [hobj] at ho
    unfold tickObjects at ho
    obtain ⟨x, hx, rfl⟩ := List.mem_map.mp ho
    exact h4 x (hsub.subset hx) hdrag

theorem dragInv_wheel {s : WorldState} (h : dragInv s) (mx delta : ℚ) :
    dragInv (step s (.wheel mx delta)) := by
  by_cases hc : (decide (mx > 700) && !s.bookOpen) = true <;>
    exact dragInv_congr h (by simp [step, handleWheel, hc])
      (by simp [step, handleWheel, hc]) (by simp [step, handleWheel, hc])

theorem dragInv_move {s : WorldState} (h : dragInv s) (mx my : ℚ) :
    dragInv (step s (.move mx my)) := by
  by_cases hbook : s.bookOpen = true
  · exact dragInv_congr h (by simp [step, handleMove, hbook])
      (by simp [step, handleMove, hbook]) (by simp [step, handleMove, hbook])
  · rw [Bool.not_eq_true] at hbook
    cases hdrag : s.draggingObject with
    | none =>
      exact dragInv_congr h (by simp [step, handleMove, hbook, hdrag])
        (by simp [step, handleMove, hbook, hdrag])
        (by simp [step, handleMove, hbook, hdrag])
    | some d =>
      obtain ⟨h1, h2, h3, h4⟩ := h
      have hstep : step s (.move mx my) =
          { s with
            draggingObject :=
              some { d with posX := qsub mx 25, posY := qsub my 25 },
            objects := s.objects.map
              (fun o => if o.id = d.id then
                { o with posX := qsub mx 25, posY := qsub my 25 } else o) } := by
        simp [step, handleMove, hbook, hdrag]
      have hidpres : ∀ x : GameObject,
          ((fun (o : GameObject) => if o.id = d.id then
            { o with posX := qsub mx 25, posY := qsub my 25 } else o) x).id =
            x.id := by
        intro x
        by_cases hx : x.id = d.id <;> simp [hx]
      rw [hstep]
      refine ⟨?_, ?_, ?_, ?_⟩
      · show ((s.objects.map (fun (o : GameObject) => if o.id = d.id then
            { o with posX := qsub mx 25, posY := qsub my 25 } else o)).map
            (fun o => o.id)).Nodup
        rw [map_ids_of_id_preserving hidpres]
        exact h1
      · intro x hx
        obtain ⟨y, hy, rfl⟩ := List.mem_map.mp hx
        rw [hidpres y]
        exact h2 y hy
      · intro d2 hd2
        have := Option.some.inj hd2
        rw [← this]
        exact h3 d hdrag
      · intro x hx hxdrag
        obtain ⟨y, hy, rfl⟩ := List.mem_map.mp hx
        have hydrag : y.isDragging = true := by
          by_cases hyd : y.id = d.id
          · simpa [hyd] using hxdrag
          · simpa [hyd] using hxdrag
        obtain ⟨d0, hd0, hd0id⟩ := h4 y hy hydrag
        rw [hdrag] at hd0
        have hde := Option.some.inj hd0
        refine ⟨{ d with posX := qsub mx 25, posY := qsub my 25 }, rfl, ?_⟩
        have hyid : ((fun (o : GameObject) => if o.id = d.id then
            { o with posX := qsub mx 25, posY := qsub my 25 } else o) y).id =
            y.id := hidpres y
        rw [hyid, hd0id, hde]

theorem findDragTarget_mem {mx my : ℚ} :
    ∀ {l : List GameObject} {o : GameObject},
      findDragTarget mx my l = some o → o ∈ l := by
  intro l
  induction l with
  | nil => intro o h; simp [findDragTarget] at h
  | cons a t ih =>
    intro o h
    by_cases hc : a.bounds.containsPoint mx my = true
    · simp only [findDragTarget, hc, if_true, Option.some.injEq] at h
      exact h ▸ List.mem_cons_self ..
    · simp only [findDragTarget, hc, Bool.false_eq_true, if_false] at h
      exact List.mem_cons_of_mem _ (ih h)

theorem dragInv_press {s : WorldState} (h : dragInv s)
    (mx my newW newH time : ℚ) (hnone : s.draggingObject = none) :
    dragInv (step s (.press mx my newW newH time)) := by
  have hnodrag : ∀ o ∈ s.objects, o.isDragging = false := by
    intro o ho
    by_contra hne
    rw [Bool.not_eq_false] at hne
    obtain ⟨d, hd, _⟩ := h.2.2.2 o ho hne
    rw [hnone] at hd
    exact Option.noConfusion hd
  by_cases hbo : bookAfterPress s.bookOpen mx my = true
  · exact dragInv_congr h (by simp [step, handlePress, hbo])
      (by simp [step, handlePress, hbo]) (by simp [step, handlePress, hbo])
  · rw [Bool.not_eq_true] at hbo
    cases hsi : findSpawnIdx mx my s.sidebarScroll s.objects.length
        s.elements 0 0 with
    | none =>
      cases hdt : findDragTarget mx my s.objects with
      | none =>
        exact dragInv_congr h
          (by simp [step, handlePress, hbo, hsi, hdt])
          (by simp [step, handlePress, hbo, hsi, hdt])
          (by simp [step, handlePress, hbo, hsi, hdt])
      | some o =>
        exact dragInv_dragMark h hnodrag (findDragTarget_mem hdt)
          (by simp [step, handlePress, hbo, hsi, hdt])
          (by simp [step, handlePress, hbo, hsi, hdt])
          (by simp [step, handlePress, hbo, hsi, hdt])
    | some i =>
      cases hge : s.elements[i]? with
      | none =>
        cases hdt : findDragTarget mx my s.objects with
        | none =>
          exact dragInv_congr h
            (by simp [step, handlePress, hbo, hsi, hge, hdt])
            (by simp [step, handlePress, hbo, hsi, hge, hdt])
            (by simp [step, handlePress, hbo, hsi, hge, hdt])
        | some o =>
          exact dragInv_dragMark h hnodrag (findDragTarget_mem hdt)
            (by simp [step, handlePress, hbo, hsi, hge, hdt])
            (by simp [step, handlePress, hbo, hsi, hge, hdt])
            (by simp [step, handlePress, hbo, hsi, hge, hdt])
      | some e =>
        have hinv2 : dragInv
            { s with
              objects := s.objects ++
                [({ id := s.nextId, elemName := e.name, posX := 400,
                    posY := 300, width := newW, height := newH,
                    creationTime := time, isDragging := false,
                    alpha := 255 } : GameObject)],
              elements := incrementCountAt i s.elements, bookOpen := false,
              nextId := s.nextId + 1 } :=
          dragInv_append_fresh h rfl rfl rfl rfl rfl
        have hnodrag2 : ∀ o ∈ s.objects ++
            [({ id := s.nextId, elemName := e.name, posX := 400, posY := 300,
                width := newW, height := newH, creationTime := time,
                isDragging := false, alpha := 255 } : GameObject)],
            o.isDragging = false := by
          intro o ho
          rcases List.mem_append.mp ho with hm | hm
          · exact hnodrag o hm
          · rcases List.mem_cons.mp hm with rfl | habs
            · rfl
            · simp at habs
        cases hdt : findDragTarget mx my (s.objects ++
            [({ id := s.nextId, elemName := e.name, posX := 400, posY := 300,
                width := newW, height := newH, creationTime := time,
                isDragging := false, alpha := 255 } : GameObject)]) with
        | none =>
          exact dragInv_congr hinv2
            (by simp [step, handlePress, hbo, hsi, hge, hdt])
            (by simp [step, handlePress, hbo, hsi, hge, hdt])
            (by simp [step, handlePress, hbo, hsi, hge, hdt])
        | some o =>
          exact dragInv_dragMark hinv2 hnodrag2 (findDragTarget_mem hdt)
            (by simp [step, handlePress, hbo, hsi, hge, hdt])
            (by simp [step, handlePress, hbo, hsi, hge, hdt])
            (by simp [step, handlePress, hbo, hsi, hge, hdt])

theorem dragInv_release {s : WorldState} (h : dragInv s)
    (newW newH time : ℚ) : dragInv (step s (.release newW newH time)) := by
  obtain ⟨h1, h2, h3, h4⟩ := h
  by_cases hbook : s.bookOpen = true
  · exact dragInv_congr ⟨h1, h2, h3, h4⟩ (by simp [step, handleRelease, hbook])
      (by simp [step, handleRelease, hbook])
      (by simp [step, handleRelease, hbook])
  · rw [Bool.not_eq_true] at hbook
    cases hdrag : s.draggingObject with
    | none =>
      exact dragInv_congr ⟨h1, h2, h3, h4⟩
        (by simp [step, handleRelease, hbook, hdrag])
        (by simp [step, handleRelease, hbook, hdrag])
        (by simp [step, handleRelease, hbook, hdrag])
    | some d =>
      have hidpres : ∀ x : GameObject,
          ((fun (o : GameObject) => if o.id = d.id then
            { o with isDragging := false } else o) x).id = x.id := by
        intro x
        by_cases hx : x.id = d.id <;> simp [hx]
      by_cases htrash : d.bounds.intersects trashRect = true
      · have hobj : (step s (.release newW newH time)).objects =
            (s.objects.filter (fun o => !(o.id = d.id))).map
              (fun o => if o.id = d.id then { o with isDragging := false }
                else o) := by
          simp [step, handleRelease, hbook, hdrag, htrash]
        have hdrag2 : (step s (.release newW newH time)).draggingObject =
            none := by
          simp [step, handleRelease, hbook, hdrag, htrash]
        have hnext : (step s (.release newW newH time)).nextId = s.nextId := by
          simp [step, handleRelease, hbook, hdrag, htrash]
        refine ⟨?_, ?_, ?_, ?_⟩
        · rw [hobj, map_ids_of_id_preserving hidpres]
          exact h1.sublist ((List.filter_sublist s.objects).map _)
        · intro x hx
          rw [hobj] at hx
          obtain ⟨y, hy, rfl⟩ := List.mem_map.mp hx
          rw [hidpres y, hnext]
          exact h2 y (List.mem_of_mem_filter hy)
        · intro d2 hd2
          rw [hdrag2] at hd2
          exact Option.noConfusion hd2
        · intro x hx hxdrag
          rw [hobj] at hx
          obtain ⟨y, hy, rfl⟩ := List.mem_map.mp hx
          have hyne := (List.mem_filter.mp hy).2
          simp only [Bool.not_eq_eq_eq_not, Bool.not_true,
            decide_eq_false_iff_not] at hyne
          rw [if_neg hyne] at hxdrag
          obtain ⟨d0, hd0, hd0id⟩ := h4 y (List.mem_of_mem_filter hy) hxdrag
          rw [hdrag] at hd0
          exact absurd (hd0id.trans (congrArg GameObject.id
            (Option.some.inj hd0).symm)) hyne
      · have hfresh : s.nextId ∉ s.objects.map (fun o => o.id) := by
          intro hmem
          obtain ⟨o, ho, hoid⟩ := List.mem_map.mp hmem
          have := h2 o ho
          omega
        have hndcc := checkCollisions_objects_ids_nodup d time s.nextId newW
          newH s h1 hfresh
        have hshape := checkCollisions_objects_shape d time s.nextId newW
          newH s
        have hobj : (step s (.release newW newH time)).objects =
            ((checkCollisions d time s.nextId newW newH s).objects).map
              (fun o => if o.id = d.id then { o with isDragging := false }
                else o) := by
          simp [step, handleRelease, hbook, hdrag, htrash]
        have hdrag2 : (step s (.release newW newH time)).draggingObject =
            none := by
          simp [step, handleRelease, hbook, hdrag, htrash]
        have hnext : (step s (.release newW newH time)).nextId =
            s.nextId + 1 := by
          simp [step, handleRelease, hbook, hdrag, htrash]
        refine ⟨?_, ?_, ?_, ?_⟩
        · rw [hobj, map_ids_of_id_preserving hidpres]
          exact hndcc
        · intro x hx
          rw [hobj] at hx
          obtain ⟨y, hy, rfl⟩ := List.mem_map.mp hx
          rw [hidpres y, hnext]
          rcases hshape y hy with ⟨o, ho, hoid, _⟩ | ⟨hoid, _⟩
          · have := h2 o ho
            omega
          · omega
        · intro d2 hd2
          rw [hdrag2] at hd2
          exact Option.noConfusion hd2
        · intro x hx hxdrag
          rw [hobj] at hx
          obtain ⟨y, hy, rfl⟩ := List.mem_map.mp hx
          by_cases hyd : y.id = d.id
          · rw [if_pos hyd] at hxdrag
            exact absurd hxdrag (by simp)
          · rw [if_neg hyd] at hxdrag
            rcases hshape y hy with ⟨o, ho, hoid, hodrag⟩ | ⟨_, hodrag⟩
            · rw [hodrag] at hxdrag
              obtain ⟨d0, hd0, hd0id⟩ := h4 o ho hxdrag
              rw [hdrag] at hd0
              exact absurd (hoid.trans (hd0id.trans (congrArg GameObject.id
                (Option.some.inj hd0).symm))) hyd
            · rw [hodrag] at hxdrag
              exact absurd hxdrag (by simp)

theorem dragInv_init : dragInv initState := by
  refine ⟨by simp [initState], by simp [initState], ?_, by simp [initState]⟩
  intro d hd
  simp [initState] at hd

theorem dragInv_of_reachableWF {s : WorldState} (h : ReachableWF s) :
    dragInv s := by
  induction h with
  | init => exact dragInv_init
  | press mx my newW newH time hr hnone ih => exact dragInv_press ih mx my newW newH time hnone
  | release newW newH time hr ih => exact dragInv_release ih newW newH time
  | move mx my hr ih => exact dragInv_move ih mx my
  | wheel mx delta hr ih => exact dragInv_wheel ih mx delta
  | tick hr ih => exact dragInv_tick ih

/-- C6: in every state reachable by a well-formed pointer stream (a press is
only delivered while no drag is in progress, as a single mouse button
guarantees), at most one object instance in the world registry has
`isDragging = true`. -/
theorem single_dragger_invariant (s : WorldState) (h : ReachableWF s) :
    s.objects.countP (fun o => o.isDragging) ≤ 1 := by
  obtain ⟨h1, _, _, h4⟩ := dragInv_of_reachableWF h
  cases hd : s.draggingObject with
  | none =>
    have : s.objects.countP (fun o => o.isDragging) = 0 := by
      rw [List.countP_eq_zero]
      intro o ho hdrag
      obtain ⟨d, hdd, _⟩ := h4 o ho hdrag
      rw [hd] at hdd
      exact Option.noConfusion hdd
    omega
  | some d =>
    apply countP_le_one_of_common_id h1 (x := d.id)
    intro o ho hdrag
    obtain ⟨d0, hd0, hid⟩ := h4 o ho hdrag
    rw [hd] at hd0
    rw [hid, (Option.some.inj hd0).symm]

theorem single_dragger_invariant_witness :
    (step (step initState (.press 710 15 25 25 1))
        (.press 405 305 25 25 2)).objects.countP
      (fun o => o.isDragging) ≤ 1 :=
  single_dragger_invariant _
    (ReachableWF.press 405 305 25 25 2
      (ReachableWF.press 710 15 25 25 1 ReachableWF.init rfl) (by decide))

/-! ### Catalog evolution across events -/

theorem checkCollisions_elements_cases (dragged : GameObject) (time : ℚ)
    (newId : Nat) (newW newH : ℚ) (st : WorldState) :
    (checkCollisions dragged time newId newW newH st).elements =
      st.elements ∨
    ∃ r, (checkCollisions dragged time newId newW newH st).elements =
      discoverAndCount r st.elements := by
  cases hhit : (scanObjects dragged time st.invalidMarkPosX st.invalidMarkPosY
      st.invalidMarkTime st.objects).hit with
  | none =>
    left
    simp [checkCollisions, hhit]
  | some other =>
    right
    exact ⟨getResult dragged.elemName other.elemName,
      by simp [checkCollisions, hhit]⟩

/-- Every event either leaves the catalog unchanged, increments one entry's
counter (explicit spawn), or discovers-and-counts one name (combination). -/
theorem step_elements_cases (s : WorldState) (ev : GEvent) :
    (step s ev).elements = s.elements ∨
    (∃ i, (step s ev).elements = incrementCountAt i s.elements) ∨
    (∃ r, (step s ev).elements = discoverAndCount r s.elements) := by
  cases ev with
  | press mx my newW newH time =>
    by_cases hbo : bookAfterPress s.bookOpen mx my = true
    · left; simp [step, handlePress, hbo]
    · rw [Bool.not_eq_true] at hbo
      cases hsi : findSpawnIdx mx my s.sidebarScroll s.objects.length
          s.elements 0 0 with
      | none =>
        cases hdt : findDragTarget mx my s.objects with
        | none => left; simp [step, handlePress, hbo, hsi, hdt]
        | some o => left; simp [step, handlePress, hbo, hsi, hdt]
      | some i =>
        cases hge : s.elements[i]? with
        | none =>
          cases hdt : findDragTarget mx my s.objects with
          | none => left; simp [step, handlePress, hbo, hsi, hge, hdt]
          | some o => left; simp [step, handlePress, hbo, hsi, hge, hdt]
        | some e =>
          cases hdt : findDragTarget mx my (s.objects ++
              [({ id := s.nextId, elemName := e.name, posX := 400, posY := 300,
                  width := newW, height := newH, creationTime := time,
                  isDragging := false, alpha := 255 } : GameObject)]) with
          | none =>
            right; left
            exact ⟨i, by simp [step, handlePress, hbo, hsi, hge, hdt]⟩
          | some o =>
            right; left
            exact ⟨i, by simp [step, handlePress, hbo, hsi, hge, hdt]⟩
  | release newW newH time =>
    by_cases hbook : s.bookOpen = true
    · left; simp [step, handleRelease, hbook]
    · rw [Bool.not_eq_true] at hbook
      cases hdrag : s.draggingObject with
      | none => left; simp [step, handleRelease, hbook, hdrag]
      | some d =>
        by_cases htrash : d.bounds.intersects trashRect = true
        · left; simp [step, handleRelease, hbook, hdrag, htrash]
        · have helems : (step s (.release newW newH time)).elements =
              (checkCollisions d time s.nextId newW newH s).elements := by
            simp [step, handleRelease, hbook, hdrag, htrash]
          rw [helems]
          rcases checkCollisions_elements_cases d time s.nextId newW newH s
            with hc | ⟨r, hc⟩
          · left; exact hc
          · right; right; exact ⟨r, hc⟩
  | move mx my =>
    left
    by_cases hbook : s.bookOpen = true
    · simp [step, handleMove, hbook]
    · rw [Bool.not_eq_true] at hbook
      cases hdrag : s.draggingObject with
      | none => simp [step, handleMove, hbook, hdrag]
      | some d => simp [step, handleMove, hbook, hdrag]
  | wheel mx delta =>
    left
    by_cases hc : (decide (mx > 700) && !s.bookOpen) = true <;>
      simp [step, handleWheel, hc]
  | tick => left; rfl

theorem incrementCountAt_pointwise :
    ∀ (i : Nat) (l : List Element) (j : Nat),
      (incrementCountAt i l)[j]? = l[j]? ∨
      ∃ e, l[j]? = some e ∧ (incrementCountAt i l)[j]? =
        some { e with creationCount := e.creationCount + 1 } := by
  intro i l
  induction l generalizing i with
  | nil => intro j; left; simp [incrementCountAt]
  | cons a t ih =>
    intro j
    cases i with
    | zero =>
      cases j with
      | zero =>
        right
        exact ⟨a, by simp, by simp [incrementCountAt]⟩
      | succ j2 => left; simp [incrementCountAt]
    | succ i2 =>
      cases j with
      | zero => left; simp [incrementCountAt]
      | succ j2 =>
        have hstep2 : incrementCountAt (i2 + 1) (a :: t) =
            a :: incrementCountAt i2 t := by
          simp [incrementCountAt]
        rw [hstep2, List.getElem?_cons_succ, List.getElem?_cons_succ]
        exact ih i2 j2

theorem discoverAndCount_pointwise (r : String) :
    ∀ (l : List Element) (j : Nat),
      (discoverAndCount r l)[j]? = l[j]? ∨
      ∃ e, l[j]? = some e ∧ (discoverAndCount r l)[j]? =
        some { e with discovered := true,
                      creationCount := e.creationCount + 1 } := by
  intro l
  induction l with
  | nil => intro j; left; simp [discoverAndCount]
  | cons a t ih =>
    intro j
    by_cases ha : a.name = r
    · cases j with
      | zero =>
        right
        exact ⟨a, by simp, by simp [discoverAndCount, ha]⟩
      | succ j2 => left; simp [discoverAndCount, ha]
    · cases j with
      | zero => left; simp [discoverAndCount, ha]
      | succ j2 =>
        have hstep2 : discoverAndCount r (a :: t) =
            a :: discoverAndCount r t := by
          simp [discoverAndCount, ha]
        rw [hstep2, List.getElem?_cons_succ, List.getElem?_cons_succ]
        exact ih j2

/-- One event never clears a discovered flag. -/
theorem step_discovered_monotone {s : WorldState} (ev : GEvent) {j : Nat}
    {e : Element} (hj : s.elements[j]? = some e) (hd : e.discovered = true) :
    ∃ e2, (step s ev).elements[j]? = some e2 ∧ e2.discovered = true := by
  rcases step_elements_cases s ev with heq | ⟨i, heq⟩ | ⟨r, heq⟩
  · exact ⟨e, by rw [heq, hj], hd⟩
  · rcases incrementCountAt_pointwise i s.elements j with hsame | ⟨e0, he0, hset⟩
    · exact ⟨e, by rw [heq, hsame, hj], hd⟩
    · rw [hj] at he0
      have he : e0 = e := (Option.some.inj he0).symm
      subst he
      refine ⟨{ e0 with creationCount := e0.creationCount + 1 },
        by rw [heq, hset], ?_⟩
      simpa using hd
  · rcases discoverAndCount_pointwise r s.elements j with hsame | ⟨e0, he0, hset⟩
    · exact ⟨e, by rw [heq, hsame, hj], hd⟩
    · rw [hj] at he0
      have he : e0 = e := (Option.some.inj he0).symm
      subst he
      exact ⟨_, by rw [heq, hset], rfl⟩

/-- C8: once an element is discovered, no sequence of operations (spawn, drag,
release with collision resolution or trash deletion, scroll, tick) ever sets
its discovered flag back to false. -/
theorem discovery_monotone :
    ∀ (evs : List GEvent) (s : WorldState) (j : Nat) (e : Element),
      s.elements[j]? = some e → e.discovered = true →
      ∃ e2, (run s evs).elements[j]? = some e2 ∧ e2.discovered = true := by
  intro evs
  induction evs with
  | nil => intro s j e hj hd; exact ⟨e, hj, hd⟩
  | cons ev rest ih =>
    intro s j e hj hd
    obtain ⟨e1, h1, hd1⟩ := step_discovered_monotone ev hj hd
    exact ih (step s ev) j e1 h1 hd1

theorem discovery_monotone_witness :
    ∃ e2, (run initState [GEvent.tick]).elements[0]? = some e2 ∧
      e2.discovered = true :=
  discovery_monotone [GEvent.tick] initState 0
    ⟨"Fire", "A blazing flame", true, 0⟩ (by decide) rfl

theorem step_preserves_created_inv {s : WorldState} (ev : GEvent)
    (h : ∀ (j : Nat) (e : Element), s.elements[j]? = some e →
      e.discovered = true → 1 ≤ e.creationCount ∨ e.name ∈ primitiveNames) :
    ∀ (j : Nat) (e2 : Element), (step s ev).elements[j]? = some e2 →
      e2.discovered = true →
      1 ≤ e2.creationCount ∨ e2.name ∈ primitiveNames := by
  intro j e2 hj2 hd2
  rcases step_elements_cases s ev with heq | ⟨i, heq⟩ | ⟨r, heq⟩
  · rw [heq] at hj2
    exact h j e2 hj2 hd2
  · rw [heq] at hj2
    rcases incrementCountAt_pointwise i s.elements j with hsame | ⟨e0, he0, hset⟩
    · rw [hsame] at hj2
      exact h j e2 hj2 hd2
    · rw [hset] at hj2
      have he := Option.some.inj hj2
      left
      rw [← he]
      simp
  · rw [heq] at hj2
    rcases discoverAndCount_pointwise r s.elements j with hsame | ⟨e0, he0, hset⟩
    · rw [hsame] at hj2
      exact h j e2 hj2 hd2
    · rw [hset] at hj2
      have he := Option.some.inj hj2
      left
      rw [← he]
      simp

/-- Counterexample to C7 as stated: in the initial state — which is reachable
— the primitive element Fire has `discovered = true` but `creationCount = 0`,
since the `Element` constructor initialises every counter to 0 and the four
primitives start discovered. -/
theorem discovered_zero_count_initial :
    ¬(∀ s : WorldState, Reachable s → ∀ e ∈ s.elements,
        e.discovered = true → 1 ≤ e.creationCount) := by
  intro hall
  have := hall initState Reachable.init
    ⟨"Fire", "A blazing flame", true, 0⟩ (by decide) rfl
  exact absurd this (by decide)

/-- C7 (amended): in every reachable state, every element with
`discovered = true` has `creationCount ≥ 1` unless it is one of the four
primitive elements, which start discovered with `creationCount = 0`. -/
theorem discovered_implies_created (s : WorldState) (h : Reachable s) :
    ∀ e ∈ s.elements, e.discovered = true →
      1 ≤ e.creationCount ∨ e.name ∈ primitiveNames := by
  have hinv : ∀ (j : Nat) (e : Element), s.elements[j]? = some e →
      e.discovered = true →
      1 ≤ e.creationCount ∨ e.name ∈ primitiveNames := by
    induction h with
    | init =>
      intro j e hj hd
      have hmem : e ∈ initState.elements := by
        obtain ⟨hlt, hget⟩ := List.getElem?_eq_some_iff.mp hj
        exact hget ▸ List.getElem_mem hlt
      have hall : ∀ e ∈ initialElements, e.discovered = true →
          1 ≤ e.creationCount ∨ e.name ∈ primitiveNames := by decide
      exact hall e hmem hd
    | step ev hr ih => exact step_preserves_created_inv ev ih
  intro e hmem hd
  obtain ⟨j, hjlt, hjget⟩ := List.mem_iff_getElem.mp hmem
  exact hinv j e (by rw [List.getElem?_eq_some_iff]; exact ⟨hjlt, hjget⟩) hd

theorem discovered_implies_created_witness :
    1 ≤ (⟨"Fire", "A blazing flame", true, 0⟩ : Element).creationCount ∨
      (⟨"Fire", "A blazing flame", true, 0⟩ : Element).name ∈
        primitiveNames :=
  discovered_implies_created initState Reachable.init
    ⟨"Fire", "A blazing flame", true, 0⟩ (by decide) rfl
